import Mathlib

/-!
# Verification of the dsp-scraper price-extraction / currency-normalization core

This file shallowly embeds the core pure functions of
`src/dsp_scrapers/apple_music_scraper.py` (and, where a claim cites it,
`src/dsp_scrapers/spotify_scraper.py`) and proves or refutes the frozen
claims about them.

Embedding conventions:

* Python strings are embedded as `List Char` (`Toks`); `String` wrappers with
  the source functions' names are provided for the claim statements.
* Python regular expressions are embedded as hand-compiled backtracking
  matchers with Python `re` semantics (leftmost match position, alternation
  priority in source order, greedy quantifiers, word boundaries, lookarounds).
  Character classes `\d`, `\s`, `\w` and case folding are modelled on the
  ASCII fragment (plus the specific non-ASCII literals appearing in the
  source patterns); the scraped inputs the claims quantify over are
  restricted accordingly.
* Python exceptions are embedded as `Except Unit`; each `try/except` of the
  source becomes an explicit handler (`pTry`).  External library calls that
  can raise (`babel.numbers.get_territory_currencies`) are parameters of
  type `String → PRes _`.
* Python `float` / `str(float)` are embedded exactly: a decimal literal is
  parsed to an exact mantissa/scale pair, rounded to the nearest IEEE-754
  binary64 value (round half to even, overflow to `inf`), and formatted with
  CPython's shortest round-trip `repr` (positional for decimal exponents in
  `[-4, 15]`, scientific otherwise).  For values with at most 15 significant
  digits and decimal exponent in `[-4, 15]` the binary64 round trip is the
  identity on canonically written decimals, so the model short-circuits to
  the canonical decimal form there; outside that range the rounding and
  shortest-repr search are computed explicitly.  (Not modelled, and
  unreachable from the claims' input domains: `inf`/`nan`/underscore
  literals, non-ASCII digits, subnormal values.)
-/

set_option maxRecDepth 10000

namespace DspScraper

abbrev Toks := List Char

/-! ## Character classes (ASCII models of Python `\d`, `\s`, `\w`, case folding) -/

def isDig (c : Char) : Bool :=
  c = '0' ∨ c = '1' ∨ c = '2' ∨ c = '3' ∨ c = '4' ∨
  c = '5' ∨ c = '6' ∨ c = '7' ∨ c = '8' ∨ c = '9'

def isWs (c : Char) : Bool :=
  c = ' ' ∨ c = '\t' ∨ c = '\n' ∨ c = '\r' ∨ c = '\x0b' ∨ c = '\x0c' ∨ c = '\xa0'

def isAlphaA (c : Char) : Bool := ('a' ≤ c ∧ c ≤ 'z') ∨ ('A' ≤ c ∧ c ≤ 'Z')

def isWordC (c : Char) : Bool := isAlphaA c ∨ isDig c ∨ c = '_'

def isUpperA (c : Char) : Bool := 'A' ≤ c ∧ c ≤ 'Z'

/-- ASCII lowercase, plus the accented letters appearing in the source's
case-insensitive patterns. -/
def lowerA (c : Char) : Char :=
  if isUpperA c then Char.ofNat (c.toNat + 32)
  else if c = 'É' then 'é' else if c = 'Ê' then 'ê' else if c = 'È' then 'è'
  else if c = 'Ó' then 'ó' else c

def upperA (c : Char) : Char :=
  if c = 'a' then 'A' else if c = 'b' then 'B' else if c = 'c' then 'C'
  else if c = 'd' then 'D' else if c = 'e' then 'E' else if c = 'f' then 'F'
  else if c = 'g' then 'G' else if c = 'h' then 'H' else if c = 'i' then 'I'
  else if c = 'j' then 'J' else if c = 'k' then 'K' else if c = 'l' then 'L'
  else if c = 'm' then 'M' else if c = 'n' then 'N' else if c = 'o' then 'O'
  else if c = 'p' then 'P' else if c = 'q' then 'Q' else if c = 'r' then 'R'
  else if c = 's' then 'S' else if c = 't' then 'T' else if c = 'u' then 'U'
  else if c = 'v' then 'V' else if c = 'w' then 'W' else if c = 'x' then 'X'
  else if c = 'y' then 'Y' else if c = 'z' then 'Z' else c

def isSepPC (c : Char) : Bool := c = '.' ∨ c = ','

/-! ## Regex engine

Patterns are first-order data (`Rx`) interpreted with Python `re` semantics:
leftmost match position, alternation priority in source order, greedy
quantifiers with backtracking, word boundaries and lookarounds.  A matcher
run returns the list of possible `(last consumed char, rest)` continuations
in priority order. -/

/-- The character classes appearing in the source patterns. -/
inductive CK where
  | dig       -- `\d`
  | ws        -- `\s`
  | sep       -- `[.,]`
  | sepWs     -- `[.,\s]`
  | digWsSep  -- `[\d\s.,]`
  | wsDig     -- `[\s\d]`
  | upperAZ   -- `[A-Z]`
  | alphaAZ   -- `[A-Za-z]` (`[A-Z]` under `(?i)`)
  | eAcc      -- `[eéê]` under `(?i)`
  | eAcu      -- `[eé]` under `(?i)`
  | eGrave    -- `[eè]` under `(?i)`
  | oAcc      -- `[oó]` under `(?i)`
  | iTk       -- `[ıi]` under `(?i)`
  deriving DecidableEq

def ckTest : CK → Char → Bool
  | .dig, c => isDig c
  | .ws, c => isWs c
  | .sep, c => isSepPC c
  | .sepWs, c => isSepPC c ∨ isWs c
  | .digWsSep, c => isDig c ∨ isWs c ∨ isSepPC c
  | .wsDig, c => isWs c ∨ isDig c
  | .upperAZ, c => isUpperA c
  | .alphaAZ, c => isAlphaA c
  | .eAcc, c => lowerA c = 'e' ∨ lowerA c = 'é' ∨ lowerA c = 'ê'
  | .eAcu, c => lowerA c = 'e' ∨ lowerA c = 'é'
  | .eGrave, c => lowerA c = 'e' ∨ lowerA c = 'è'
  | .oAcc, c => lowerA c = 'o' ∨ lowerA c = 'ó'
  | .iTk, c => lowerA c = 'ı' ∨ lowerA c = 'i'

/-- Regex syntax (first-order, ground data). -/
inductive Rx where
  | eps
  | cls (k : CK)
  | str (ci : Bool) (cs : List Char)             -- literal
  | lits (ci : Bool) (alts : List (List Char))   -- literal alternation
  | seq (a b : Rx)
  | alt (a b : Rx)
  | star (a : Rx)                                -- greedy `*`
  | bnd                                          -- `\b`
  | nbehind (k : CK)                             -- `(?<![k])`
  | ahead (a : Rx)                               -- `(?=a)`
  deriving DecidableEq

def rxSeqs : List Rx → Rx
  | [] => .eps
  | [a] => a
  | a :: t => .seq a (rxSeqs t)

def rxAlts : List Rx → Rx
  | [] => Rx.seq (Rx.ahead (Rx.cls .dig)) (Rx.cls .ws)   -- unmatchable (unused)
  | [a] => a
  | a :: t => .alt a (rxAlts t)

/-- Greedy `?`. -/
def rxOpt (a : Rx) : Rx := .alt a .eps

/-- Greedy `+`. -/
def rxPlus (a : Rx) : Rx := .seq a (.star a)

/-- Exactly `n` repetitions. -/
def rxRep (a : Rx) : ℕ → Rx
  | 0 => .eps
  | 1 => a
  | n + 1 => .seq a (rxRep a n)

/-- Greedy `{lo,hi}` (more repetitions preferred). -/
def rxRepRange (a : Rx) (lo hi : ℕ) : Rx :=
  rxAlts ((List.range (hi + 1 - lo)).map fun i => rxRep a (hi - i))

def sC (s : String) : Rx := .str false s.data

def sCI (s : String) : Rx := .str true s.data

/-- Continuation: last consumed character (for `\b`/lookbehind) and rest. -/
abbrev Cont := Option Char × Toks

/-- Literal prefix match, returning the continuation. -/
def pfxGo (ci : Bool) : Option Char → List Char → Toks → Option Cont
  | pv, [], rs => some (pv, rs)
  | _, c :: cs, d :: t =>
    if (if ci then lowerA d = lowerA c else d = c) then pfxGo ci (some d) cs t
    else none
  | _, _ :: _, [] => none

def litsGo (ci : Bool) (pv : Option Char) (rs : Toks) : List (List Char) → List Cont
  | [] => []
  | a :: rest =>
    (match pfxGo ci pv a rs with
     | some x => [x]
     | none => []) ++ litsGo ci pv rs rest

def wordB (pv : Option Char) (rs : Toks) : Bool :=
  (match pv with | some c => isWordC c | none => false) ≠
    (match rs with | c :: _ => isWordC c | [] => false)

mutual

/-- Interpreter.  The fuel only bounds recursion depth (generously); it is
never exhausted on the inputs considered. -/
def mrun : ℕ → Rx → Option Char → Toks → List Cont
  | 0, _, _, _ => []
  | f + 1, r, pv, rs =>
    match r with
    | .eps => [(pv, rs)]
    | .cls k =>
      match rs with
      | d :: t => if ckTest k d then [(some d, t)] else []
      | [] => []
    | .str ci cs =>
      match pfxGo ci pv cs rs with
      | some x => [x]
      | none => []
    | .lits ci alts => litsGo ci pv rs alts
    | .seq a b => (mrun f a pv rs).flatMap fun x => mrun f b x.1 x.2
    | .alt a b => mrun f a pv rs ++ mrun f b pv rs
    | .star a => mstar f a pv rs
    | .bnd => if wordB pv rs then [(pv, rs)] else []
    | .nbehind k =>
      match pv with
      | some c => if ckTest k c then [] else [(pv, rs)]
      | none => [(pv, rs)]
    | .ahead a => if (mrun f a pv rs).isEmpty then [] else [(pv, rs)]

/-- Greedy star: more repetitions first; empty inner matches not iterated. -/
def mstar : ℕ → Rx → Option Char → Toks → List Cont
  | 0, _, pv, rs => [(pv, rs)]
  | f + 1, a, pv, rs =>
    ((mrun f a pv rs).flatMap fun x =>
      if x.2.length < rs.length then mstar f a x.1 x.2 else []) ++ [(pv, rs)]

end

def FUEL : ℕ := 100000

/-! ## Search / finditer / sub with `re` semantics -/

/-- `re.search`: span `(start, end)` of the leftmost match. -/
def searchGo (a : Rx) (len : ℕ) : ℕ → Option Char → Toks → Option (ℕ × ℕ)
  | i, pv, rs =>
    match mrun FUEL a pv rs with
    | x :: _ => some (i, len - x.2.length)
    | [] =>
      match rs with
      | [] => none
      | c :: t => searchGo a len (i + 1) (some c) t

def reSearch (a : Rx) (s : Toks) : Option (ℕ × ℕ) := searchGo a s.length 0 none s

def reTest (a : Rx) (s : Toks) : Bool := (reSearch a s).isSome

/-- `re.finditer`: spans of all non-overlapping matches, left to right. -/
def findAllGo (a : Rx) (len : ℕ) : ℕ → ℕ → Option Char → Toks → List (ℕ × ℕ)
  | 0, _, _, _ => []
  | f + 1, i, pv, rs =>
    match mrun FUEL a pv rs with
    | x :: _ =>
      let e := len - x.2.length
      if e = i then
        (i, e) ::
          (match rs with
           | [] => []
           | c :: t => findAllGo a len f (i + 1) (some c) t)
      else (i, e) :: findAllGo a len f e x.1 x.2
    | [] =>
      match rs with
      | [] => []
      | c :: t => findAllGo a len f (i + 1) (some c) t

def reFindAll (a : Rx) (s : Toks) : List (ℕ × ℕ) :=
  findAllGo a s.length (2 * s.length + 2) 0 none s

/-- Substring `s[i:j]`. -/
def slice (s : Toks) (i j : ℕ) : Toks := (s.drop i).take (j - i)

/-- `re.sub(pattern, repl, s)` where the replacement is a function of the
matched substring. -/
def subAllGo (a : Rx) (s : Toks) (len : ℕ) (repl : Toks → Toks) :
    ℕ → ℕ → Option Char → Toks → Toks
  | 0, _, _, rs => rs
  | f + 1, i, pv, rs =>
    match mrun FUEL a pv rs with
    | x :: _ =>
      let e := len - x.2.length
      if e = i then
        repl [] ++
          (match rs with
           | [] => []
           | c :: t => c :: subAllGo a s len repl f (i + 1) (some c) t)
      else repl (slice s i e) ++ subAllGo a s len repl f e x.1 x.2
    | [] =>
      match rs with
      | [] => []
      | c :: t => c :: subAllGo a s len repl f (i + 1) (some c) t

def reSubAll (a : Rx) (repl : Toks → Toks) (s : Toks) : Toks :=
  subAllGo a s s.length repl (2 * s.length + 2) 0 none s

/-! ## Digit-string helpers -/

/-- Little-endian base-10 digits via explicit fuel (kernel-reducible). -/
def natDigitsRevGo : ℕ → ℕ → List ℕ
  | 0, _ => []
  | f + 1, n => if n = 0 then [] else n % 10 :: natDigitsRevGo f (n / 10)

def natDigitsRev (n : ℕ) : List ℕ := natDigitsRevGo 4000 n

/-- Number of decimal digits of `n` (`0` has no digits here). -/
def digitCount10 (n : ℕ) : ℕ := (natDigitsRev n).length

def digChar : ℕ → Char
  | 0 => '0' | 1 => '1' | 2 => '2' | 3 => '3' | 4 => '4'
  | 5 => '5' | 6 => '6' | 7 => '7' | 8 => '8' | _ => '9'

/-- Big-endian decimal digit characters of `n > 0` (`"0"` for `0`). -/
def natToChars (n : ℕ) : Toks :=
  if n = 0 then ['0'] else ((natDigitsRev n).reverse).map digChar

def charToDig (c : Char) : ℕ :=
  if c = '1' then 1 else if c = '2' then 2 else if c = '3' then 3
  else if c = '4' then 4 else if c = '5' then 5 else if c = '6' then 6
  else if c = '7' then 7 else if c = '8' then 8 else if c = '9' then 9 else 0

def natOfChars (ds : Toks) : ℕ := ds.foldl (fun a c => 10 * a + charToDig c) 0

/-- Number of factors of 10 in `n > 0` (fuel-bounded). -/
def tenValGo : ℕ → ℕ → ℕ
  | 0, _ => 0
  | f + 1, n => if n % 10 = 0 ∧ n ≠ 0 then 1 + tenValGo f (n / 10) else 0

def tenVal (n : ℕ) : ℕ := tenValGo 4000 n

/-! ## Exact scaled numbers `a · 2^two · 5^five` (for binary64 rounding) -/

structure Mx where
  a : ℕ
  two : ℤ
  five : ℤ

def mxLhs (x y : Mx) : ℕ :=
  x.a * 2 ^ (x.two - y.two).toNat * 5 ^ (x.five - y.five).toNat

def mxLT (x y : Mx) : Bool := mxLhs x y < mxLhs y x

def mxLE (x y : Mx) : Bool := mxLhs x y ≤ mxLhs y x

def mxEQ (x y : Mx) : Bool := mxLhs x y = mxLhs y x

/-- The value `n · 10^s` as an `Mx`. -/
def mxDec (n : ℕ) (s : ℤ) : Mx := ⟨n, s, s⟩

/-- Round half to even of the nonnegative rational `a / b` (`b > 0`). -/
def rndHalfEven (a b : ℕ) : ℕ :=
  let q := a / b
  let r := a % b
  if 2 * r < b then q
  else if 2 * r > b then q + 1
  else if q % 2 = 0 then q else q + 1

/-! ## Python float-literal parsing (`float(s)` on ASCII decimal literals)

`value = (−1)^neg · mant · 10^scale`.  Grammar: optional sign, digits with an
optional single point (at least one digit), optional exponent part. -/

structure FParts where
  neg : Bool
  mant : ℕ
  scale : ℤ
  deriving DecidableEq

def parseParts (s : Toks) : Option FParts :=
  let sg :=
    match s with
    | c :: t =>
      if c = '+' then (false, t) else if c = '-' then (true, t) else (false, s)
    | [] => (false, s)
  let ng := sg.1
  let r1 := sg.2
  let d1 := r1.takeWhile isDig
  let r2 := r1.drop d1.length
  let dr :=
    match r2 with
    | c :: t =>
      if c = '.' then (t.takeWhile isDig, t.drop (t.takeWhile isDig).length)
      else ([], r2)
    | [] => ([], r2)
  let d2 := dr.1
  let r3 := dr.2
  if d1 = [] ∧ d2 = [] then none
  else
    let n := natOfChars (d1 ++ d2)
    let f : ℤ := d2.length
    match r3 with
    | [] => some ⟨ng, n, -f⟩
    | e :: t =>
      if e = 'e' ∨ e = 'E' then
        let eg :=
          match t with
          | c :: u =>
            if c = '+' then (false, u) else if c = '-' then (true, u) else (false, t)
          | [] => (false, t)
        let de := eg.2.takeWhile isDig
        if de = [] ∨ eg.2.drop de.length ≠ [] then none
        else
          some ⟨ng, n,
            (if eg.1 then -(natOfChars de : ℤ) else (natOfChars de : ℤ)) - f⟩
      else none

/-! ## Binary64 rounding and CPython shortest-repr formatting -/

/-- Adjust an estimated binary exponent `e` so that `2^e ≤ v < 2^(e+1)`. -/
def adjLog2 : ℕ → ℤ → Mx → ℤ
  | 0, e, _ => e
  | f + 1, e, v =>
    if mxLT v ⟨1, e, 0⟩ then adjLog2 f (e - 1) v
    else if mxLE ⟨1, e + 1, 0⟩ v then adjLog2 f (e + 1) v
    else e

/-- Binary exponent of `v = n·10^s > 0`. -/
def binExp (n : ℕ) (s : ℤ) : ℤ :=
  adjLog2 64 ((digitCount10 n : ℤ) * 33219 / 10000 - 1 + s * 33219 / 10000) (mxDec n s)

/-- Round `n·10^s > 0` to the nearest binary64, returning `(m, e)` with value
`m·2^(e−52)`, `2^52 ≤ m < 2^53`; `none` on overflow (`inf`). -/
def floatRound (n : ℕ) (s : ℤ) : Option (ℕ × ℤ) :=
  let e := binExp n s
  let num := n * 2 ^ (52 - e).toNat * 10 ^ s.toNat
  let den := 2 ^ (e - 52).toNat * 10 ^ (-s).toNat
  let m := rndHalfEven num den
  let me := if m = 2 ^ 53 then (2 ^ 52, e + 1) else (m, e)
  if me.2 ≥ 1024 then none else some me

/-- Adjust an estimated decimal exponent `d` so that `10^d ≤ v < 10^(d+1)`. -/
def adjLog10 : ℕ → ℤ → Mx → ℤ
  | 0, d, _ => d
  | f + 1, d, v =>
    if mxLT v ⟨1, d, d⟩ then adjLog10 f (d - 1) v
    else if mxLE ⟨1, d + 1, d + 1⟩ v then adjLog10 f (d + 1) v
    else d

/-- Shortest-round-trip decimal digits for the binary64 `(m, e)`:
returns `(n, k)` with displayed value `n·10^k`.  Tries 1 to 17 significant
digits; a candidate is accepted when it rounds back to exactly this float
(interval endpoints included iff the mantissa is even). -/
def shortestGo (v loB hiB : Mx) (closed : Bool) (m : ℕ) (e d10 : ℤ) :
    ℕ → ℕ × ℤ
  | 0 =>
    -- 17-digit fallback (always round-trips)
    let k := d10 - 16
    (rndHalfEven (m * 2 ^ (e - 52).toNat * 10 ^ (-k).toNat)
      (2 ^ (52 - e).toNat * 10 ^ k.toNat), k)
  | f + 1 =>
    let p := 17 - f  -- p runs 1, 2, ..., 17 as f runs 16, ..., 0
    let k := d10 - (p : ℤ) + 1
    let n := rndHalfEven (m * 2 ^ (e - 52).toNat * 10 ^ (-k).toNat)
      (2 ^ (52 - e).toNat * 10 ^ k.toNat)
    let c : Mx := mxDec n k
    if (mxLT loB c ∧ mxLT c hiB) ∨ (closed ∧ (mxEQ c loB ∨ mxEQ c hiB)) then
      (n, k)
    else shortestGo v loB hiB closed m e d10 f

def shortestDigits (m : ℕ) (e : ℤ) : ℕ × ℤ :=
  let v : Mx := ⟨m, e - 52, 0⟩
  let loB : Mx := if m = 2 ^ 52 then ⟨4 * m - 1, e - 54, 0⟩ else ⟨2 * m - 1, e - 53, 0⟩
  let hiB : Mx := ⟨2 * m + 1, e - 53, 0⟩
  let d10 := adjLog10 64 (((digitCount10 m : ℤ) - 1) + (e - 52) * 30103 / 100000) v
  shortestGo v loB hiB (m % 2 = 0) m e d10 16

/-- Positional decimal rendering of the value `n0 · 10^sc` (`n0 > 0`,
no trailing zero digits in `n0`): CPython's `repr` format for decimal
exponents in `[-4, 15]`, e.g. `1490.0`, `10.99`, `0.01`. -/
def fmtPositional (n0 : ℕ) (sc : ℤ) : Toks :=
  let ds := natToChars n0
  if 0 ≤ sc then ds ++ List.replicate sc.toNat '0' ++ ['.', '0']
  else
    let k : ℤ := (ds.length : ℤ) + sc
    if 0 < k then ds.take k.toNat ++ '.' :: ds.drop k.toNat
    else '0' :: '.' :: (List.replicate (-k).toNat '0' ++ ds)

/-- Scientific rendering `d[.ddd]e±XX` of `n0 · 10^sc` with decimal exponent
`d10` (CPython style, exponent at least two digits). -/
def fmtSci (n0 : ℕ) (d10 : ℤ) : Toks :=
  let ds := natToChars n0
  let mant :=
    match ds with
    | [] => []
    | h :: t => if t = [] then [h] else h :: '.' :: t
  let ex := natToChars d10.natAbs
  let ex := if ex.length < 2 then '0' :: ex else ex
  mant ++ 'e' :: (if d10 < 0 then '-' else '+') :: ex

/-- Format the binary64 `(m, e)` the way CPython `repr`/`str` does. -/
def fmtBin64 (m : ℕ) (e : ℤ) : Toks :=
  let nk := shortestDigits m e
  let t := tenVal nk.1
  let n0 := nk.1 / 10 ^ t
  let sc := nk.2 + t
  let d10 := ((digitCount10 n0 : ℤ) - 1) + sc
  if -4 ≤ d10 ∧ d10 < 16 then fmtPositional n0 sc else fmtSci n0 d10

/-- `str(float(v))` for the parsed literal `v`.  Values of at most 15
significant digits with decimal exponent in `[-4, 15]` survive the binary64
round trip unchanged, so they format directly from the exact decimal
(CPython's shortest-repr guarantee); other values go through explicit
rounding and shortest-repr search. -/
def fmtParts (p : FParts) : Toks :=
  let body :=
    if p.mant = 0 then ['0', '.', '0']
    else
      let t := tenVal p.mant
      let n0 := p.mant / 10 ^ t
      let sc := p.scale + t
      let d10 := ((digitCount10 n0 : ℤ) - 1) + sc
      if digitCount10 n0 ≤ 15 ∧ -4 ≤ d10 ∧ d10 ≤ 15 then fmtPositional n0 sc
      else
        match floatRound p.mant p.scale with
        | none => ['i', 'n', 'f']
        | some me => fmtBin64 me.1 me.2
  if p.neg then '-' :: body else body

/-! ## Python exception embedding -/

/-- Result of a Python expression: normal value or raised exception. -/
abbrev PRes (α : Type) := Except Unit α

deriving instance DecidableEq for Except

/-- `true` when a call returned normally (`.ok`) rather than raising. -/
def pOk {α : Type} : PRes α → Bool
  | .ok _ => true
  | .error _ => false

/-- `try: x except: h` -/
def pTry {α : Type} (x : PRes α) (h : Unit → PRes α) : PRes α :=
  match x with
  | .ok a => .ok a
  | .error e => h e

def pMap {α β : Type} (f : α → β) (x : PRes α) : PRes β :=
  match x with
  | .ok a => .ok (f a)
  | .error e => .error e

/-- `float(s)`: parse or raise `ValueError`.  (Python also strips surrounding
whitespace, which we mirror; `inf`/`nan`/underscore literals and non-ASCII
digits are outside the model.) -/
def pyFloat (s : Toks) : PRes FParts :=
  match parseParts ((s.dropWhile isWs).reverse.dropWhile isWs |>.reverse) with
  | some p => .ok p
  | none => .error ()

/-! ## `_clean` and `_normalize_number`
(`apple_music_scraper.py` lines 167–168 and 551–564; the Spotify copy at
`spotify_scraper.py` lines 92–93 and 294–307 is character-identical). -/

def stripWsEnds (s : Toks) : Toks :=
  (s.dropWhile isWs).reverse.dropWhile isWs |>.reverse

/-- `_clean(s) = (s or "").replace("\xa0", " ").strip()` -/
def cleanT (s : Toks) : Toks :=
  stripWsEnds (s.map fun c => if c = '\xa0' then ' ' else c)

/-- The match of `re.search(r"([.,])(\d{1,2})$", p)`, returned as
`(prefix before the separator, fractional digits)`. -/
def tailDecMatch (p : Toks) : Option (Toks × Toks) :=
  match p.reverse with
  | a :: b :: c :: rest =>
    if isDig a ∧ isDig b ∧ isSepPC c then some (rest.reverse, [b, a])
    else if isDig a ∧ isSepPC b then some ((c :: rest).reverse, [a])
    else none
  | [a, b] => if isDig a ∧ isSepPC b then some ([], [a]) else none
  | _ => none

def notSepPC (c : Char) : Bool := ¬ isSepPC c

/-- `_normalize_number(p)`, with the two `try/except` blocks explicit. -/
def normNumT (p : Toks) : PRes Toks :=
  let p1 := p.filter (· ≠ ' ')
  match tailDecMatch p1 with
  | some bf =>
    pTry (pMap fmtParts (pyFloat (bf.1.filter notSepPC ++ '.' :: bf.2)))
      (fun _ => .ok [])
  | none =>
    pTry (pMap fmtParts (pyFloat (p1.filter notSepPC)))
      (fun _ => .ok [])

/-- `_normalize_number` on `String`s (the source name is `_normalize_number`). -/
def normalize_number (p : String) : PRes String :=
  pMap String.mk (normNumT p.data)

/-! ## Source pattern tables (`apple_music_scraper.py` lines 90–107, 312–385) -/

def lit (s : String) : Rx := .str false s.data

def litCI (s : String) : Rx := .str true s.data

def mBnd : Rx := .bnd

def mDig : Rx := .cls .dig

def mWsStar : Rx := .star (.cls .ws)

def mWsPlus : Rx := rxPlus (.cls .ws)

/-- `CURRENCY_TOKEN` alternatives, in source order (line 92). -/
def CURRENCY_TOKEN_ALTS : List String :=
  ["RMB", "CN¥", "US$", "CA$", "AU$", "HK$", "NT$", "MOP$", "NZ$", "RM",
   "S/.", "R$", "CHF", "Rp", "kr", "$", "€", "£", "¥", "￥", "₩", "₫", "₱",
   "₹", "₪", "₭", "₮", "₦", "₲", "₴", "₸", "TSh", "KSh", "USh", "ZAR",
   "ZWL", "R", "SAR", "QAR", "AED", "KWD", "BHD", "OMR"]

def curTokM : Rx := .lits false (CURRENCY_TOKEN_ALTS.map String.data)

def curTokCIM : Rx := .lits true (CURRENCY_TOKEN_ALTS.map String.data)

/-- `NUMBER_TOKEN = \d+(?:[.,\s]\d{3})*(?:[.,]\d{1,2})?` (line 99). -/
def numTokM : Rx :=
  .seq (rxPlus mDig)
    (.seq (.star (.seq (.cls .sepWs) (rxRep mDig 3)))
      (rxOpt (.seq (.cls .sep) (rxRepRange mDig 1 2))))

/-- `BANNER_PRICE_REGEX` (line 102): `(?:CUR\s*NUM|NUM\s*CUR)\*?`. -/
def bannerM : Rx :=
  .seq
    (.alt (.seq curTokM (.seq mWsStar numTokM))
      (.seq numTokM (.seq mWsStar curTokM)))
    (rxOpt (lit "*"))

/-- `num_pat = \d[\d\s.,]*` from `extract_amount_number` (line 573). -/
def numPatM : Rx :=
  .seq mDig (.star (.cls .digWsSep))

/-- `STRONG_TOKENS` (lines 312–340), matcher and ISO code, in source order. -/
def strongTokensM : List (Rx × String) :=
  [(rxSeqs [mBnd, litCI "RMB", mBnd], "CNY"),
   (lit "CN¥", "CNY"),
   (litCI "US$", "USD"),
   (litCI "$US", "USD"),
   (litCI "U$S", "USD"),
   (.seq mBnd (litCI "A$"), "AUD"),
   (.seq mBnd (litCI "NZ$"), "NZD"),
   (.seq mBnd (litCI "HK$"), "HKD"),
   (.seq mBnd (litCI "NT$"), "TWD"),
   (.seq mBnd (litCI "S$"), "SGD"),
   (.seq mBnd (litCI "RD$"), "DOP"),
   (.seq mBnd (litCI "N$"), "NAD"),
   (lit "R$", "BRL"),
   (lit "S/.", "PEN"),
   (lit "S/", "PEN"),
   (.seq (lit "Bs") (rxOpt (lit ".")), "BOB"),
   (.seq (lit "Gs") (rxOpt (lit ".")), "PYG"),
   (lit "₲", "PYG"),
   (.seq (lit "Q") (.ahead (.cls .wsDig)), "GTQ"),
   (lit "KSh", "KES"),
   (lit "TSh", "TZS"),
   (lit "USh", "UGX"),
   (lit "Rp", "IDR"),
   (lit "€", "EUR"),
   (lit "£", "GBP"),
   (lit "₹", "INR"),
   (rxSeqs [.nbehind .upperAZ, lit "R", rxOpt (.cls .ws), .ahead mDig], "ZAR")]

/-- `SINGLE_SYMBOL_TO_ISO` (lines 342–357), in insertion order. -/
def singleSymbolToIso : List (Char × String) :=
  [('₩', "KRW"), ('₫', "VND"), ('₺', "TRY"), ('₪', "ILS"), ('₴', "UAH"),
   ('₼', "AZN"), ('₾', "GEL"), ('₭', "LAK"), ('฿', "THB"), ('₦', "NGN"),
   ('₵', "GHS"), ('₱', "PHP"), ('₸', "KZT"), ('￥', "JPY")]

/-- `AMBIG_TOKENS` keys (lines 359–385), as matchers, in insertion order. -/
def ambigTokensM : List Rx :=
  [lit "$",
   rxSeqs [mBnd, lit "kr", rxOpt (lit "."), mBnd],
   rxSeqs [mBnd, lit "Rs", rxOpt (lit "."), mBnd],
   lit "₨",
   rxSeqs [mBnd, litCI "C$", mBnd]]

/-- `DOLLAR_CURRENCIES` (lines 387–407). -/
def DOLLAR_CURRENCIES : List String :=
  ["USD", "CAD", "AUD", "NZD", "SGD", "HKD", "TWD", "MXN", "ARS", "CLP",
   "COP", "UYU", "BBD", "BSD", "DOP", "CRC", "PAB", "HNL", "JMD"]

/-! ## Country → currency tables -/

/-- Apple scraper `HARDCODE_FALLBACKS` (lines 179–309), in source order. -/
def HARDCODE_FALLBACKS : List (String × String) :=
  [("US", "USD"), ("CA", "CAD"), ("MX", "MXN"), ("BR", "BRL"), ("AR", "ARS"),
   ("CL", "CLP"), ("CO", "COP"), ("PE", "PEN"), ("UY", "UYU"), ("PY", "PYG"),
   ("BO", "BOB"), ("NI", "NIO"), ("GT", "GTQ"), ("CR", "CRC"), ("PA", "PAB"),
   ("HN", "HNL"), ("DO", "DOP"), ("JM", "JMD"), ("BB", "BBD"), ("BS", "BSD"),
   ("BZ", "BZD"), ("EC", "USD"), ("SV", "USD"), ("PR", "USD"),
   ("GB", "GBP"), ("IE", "EUR"), ("FR", "EUR"), ("DE", "EUR"), ("ES", "EUR"),
   ("IT", "EUR"), ("PT", "EUR"), ("NL", "EUR"), ("BE", "EUR"), ("LU", "EUR"),
   ("AT", "EUR"), ("FI", "EUR"), ("EE", "EUR"), ("LV", "EUR"), ("LT", "EUR"),
   ("SK", "EUR"), ("SI", "EUR"), ("GR", "EUR"), ("CY", "EUR"), ("MT", "EUR"),
   ("BG", "BGN"), ("RO", "RON"), ("PL", "PLN"), ("CZ", "CZK"), ("HU", "HUF"),
   ("HR", "EUR"), ("DK", "DKK"), ("SE", "SEK"), ("NO", "NOK"), ("IS", "ISK"),
   ("CH", "CHF"), ("RS", "RSD"), ("BA", "BAM"), ("MK", "MKD"), ("AL", "ALL"),
   ("UA", "UAH"), ("GE", "GEL"), ("AZ", "AZN"), ("AM", "AMD"), ("KZ", "KZT"),
   ("MD", "MDL"), ("BY", "BYN"), ("TR", "TRY"), ("RU", "RUB"),
   ("AE", "AED"), ("SA", "SAR"), ("QA", "QAR"), ("KW", "KWD"), ("BH", "BHD"),
   ("OM", "OMR"), ("IL", "ILS"), ("EG", "EGP"), ("MA", "MAD"), ("TN", "TND"),
   ("DZ", "DZD"), ("IQ", "IQD"),
   ("ZA", "ZAR"), ("NG", "NGN"), ("GH", "GHS"), ("KE", "KES"), ("TZ", "TZS"),
   ("UG", "UGX"), ("CM", "XAF"), ("CI", "XOF"), ("SN", "XOF"), ("RW", "RWF"),
   ("BI", "BIF"), ("CD", "CDF"), ("BJ", "XOF"), ("TD", "XAF"), ("CG", "XAF"),
   ("GA", "XAF"), ("NE", "XOF"),
   ("JP", "JPY"), ("KR", "KRW"), ("CN", "CNY"), ("TW", "TWD"), ("HK", "HKD"),
   ("MO", "MOP"), ("SG", "SGD"), ("MY", "MYR"), ("TH", "THB"), ("VN", "VND"),
   ("PH", "PHP"), ("ID", "IDR"), ("IN", "INR"), ("PK", "PKR"), ("LK", "LKR"),
   ("NP", "NPR"), ("BD", "BDT"), ("KH", "USD"), ("MN", "MNT"), ("TJ", "TJS"),
   ("AU", "AUD"), ("NZ", "NZD"), ("KI", "AUD"), ("NR", "AUD"), ("TV", "AUD"),
   ("MH", "USD")]

/-- Apple scraper `KNOWN_ISO = set(HARDCODE_FALLBACKS.values())` (line 310). -/
def KNOWN_ISO : List String := HARDCODE_FALLBACKS.map Prod.snd

/-- Spotify scraper `HARDCODE_FALLBACKS` (`spotify_scraper.py` lines 166–230). -/
def SPOTIFY_FALLBACKS : List (String × String) :=
  [("US", "USD"), ("CA", "CAD"), ("MX", "MXN"), ("BR", "BRL"), ("AR", "ARS"),
   ("CL", "CLP"), ("CO", "COP"), ("PE", "PEN"), ("UY", "UYU"), ("PY", "PYG"),
   ("BO", "BOB"), ("NI", "NIO"), ("GT", "GTQ"), ("CR", "CRC"), ("PA", "PAB"),
   ("HN", "HNL"), ("DO", "DOP"), ("JM", "JMD"), ("BB", "BBD"), ("BS", "BSD"),
   ("BZ", "BZD"), ("EC", "USD"), ("SV", "USD"),
   ("GB", "GBP"), ("IE", "EUR"), ("FR", "EUR"), ("DE", "EUR"), ("ES", "EUR"),
   ("IT", "EUR"), ("PT", "EUR"), ("NL", "EUR"), ("BE", "EUR"), ("LU", "EUR"),
   ("AT", "EUR"), ("FI", "EUR"), ("EE", "EUR"), ("LV", "EUR"), ("LT", "EUR"),
   ("SK", "EUR"), ("SI", "EUR"), ("GR", "EUR"), ("CY", "EUR"), ("MT", "EUR"),
   ("BG", "BGN"), ("RO", "RON"), ("PL", "PLN"), ("CZ", "CZK"), ("HU", "HUF"),
   ("HR", "EUR"), ("DK", "DKK"), ("SE", "SEK"), ("NO", "NOK"), ("IS", "ISK"),
   ("CH", "CHF"), ("RS", "RSD"), ("BA", "BAM"), ("MK", "MKD"), ("AL", "ALL"),
   ("UA", "UAH"), ("GE", "GEL"), ("AZ", "AZN"), ("AM", "AMD"), ("KZ", "KZT"),
   ("MD", "MDL"), ("BY", "BYN"), ("TR", "TRY"),
   ("AE", "AED"), ("SA", "SAR"), ("QA", "QAR"), ("KW", "KWD"), ("BH", "BHD"),
   ("OM", "OMR"), ("IL", "ILS"), ("EG", "EGP"), ("MA", "MAD"), ("TN", "TND"),
   ("DZ", "DZD"), ("IQ", "IQD"),
   ("ZA", "ZAR"), ("NG", "NGN"), ("GH", "GHS"), ("KE", "KES"), ("TZ", "TZS"),
   ("UG", "UGX"), ("CM", "XAF"), ("CI", "XOF"), ("SN", "XOF"), ("RW", "RWF"),
   ("BI", "BIF"), ("CD", "CDF"),
   ("JP", "JPY"), ("KR", "KRW"), ("CN", "CNY"), ("TW", "TWD"), ("HK", "HKD"),
   ("SG", "SGD"), ("MY", "MYR"), ("TH", "THB"), ("VN", "VND"), ("PH", "PHP"),
   ("ID", "IDR"), ("IN", "INR"), ("PK", "PKR"), ("LK", "LKR"), ("NP", "NPR"),
   ("BD", "BDT"), ("AU", "AUD"), ("NZ", "NZD"), ("KI", "AUD"), ("NR", "AUD"),
   ("TV", "AUD"), ("MH", "USD")]

def upperS (s : String) : String := String.mk (s.data.map upperA)

/-- Type of the external `babel.numbers.get_territory_currencies` call:
it may raise (`.error`) or return a (possibly empty) currency list. -/
abbrev Babel := String → PRes (List String)

/-! ## `default_currency_for_alpha2` — both variants -/

/-- Apple scraper `default_currency_for_alpha2` (lines 410–420): override
table first, then the babel database under `try/except`, then `""`. -/
def default_currency_for_alpha2 (babel : Babel) (alpha2 : String) : PRes String :=
  let iso2 := upperS alpha2
  match HARDCODE_FALLBACKS.lookup iso2 with
  | some c => .ok c
  | none =>
    pTry
      (pMap (fun currs => match currs with | c :: _ => c | [] => "") (babel iso2))
      (fun _ => .ok "")

/-- Spotify scraper `default_currency_for_alpha2` (`spotify_scraper.py`
lines 234–243): babel database first (under `try/except`), then the
fallback table, then `""`. -/
def spotify_default_currency_for_alpha2 (babel : Babel) (alpha2 : String) :
    PRes String :=
  let iso2 := upperS alpha2
  do
    let first ← pTry (pMap List.head? (babel iso2)) (fun _ => .ok none)
    match first with
    | some c => .ok c
    | none => .ok ((SPOTIFY_FALLBACKS.lookup iso2).getD "")

/-! ## `detect_currency_in_text` (apple scraper, lines 423–472) -/

/-- First matching `STRONG_TOKENS` entry. -/
def strongScanIso (s : Toks) : Option String :=
  (strongTokensM.find? fun mi => reTest mi.1 s).map Prod.snd

/-- `re.search(r"[A-Z]{3}", s, re.I)`. -/
def threeLettersM : Rx := rxRep (.cls .alphaAZ) 3

/-- `\b([A-Z]{3})\b` (on the uppercased text). -/
def isoWordM : Rx := rxSeqs [mBnd, rxRep (.cls .upperAZ) 3, mBnd]

/-- First `SINGLE_SYMBOL_TO_ISO` symbol contained in `s`. -/
def singleSymScan (s : Toks) : Option (Char × String) :=
  singleSymbolToIso.find? fun ci => s.contains ci.1

/-- The 3-letter-ISO-near-a-digit scan (lines 457–466): first bounded
3-uppercase-letter token that is not `TRY`, is in `KNOWN_ISO`, and has a
digit within 6 characters. -/
def isoCodeScan (S : Toks) : Option String :=
  ((reFindAll isoWordM S).find? fun ab =>
      let code := String.mk (slice S ab.1 ab.2)
      code ≠ "TRY" ∧ KNOWN_ISO.contains code ∧
        (slice S (ab.1 - 6) (min S.length (ab.2 + 6))).any isDig).map
    fun ab => String.mk (slice S ab.1 ab.2)

def ambigTest (s : Toks) : Bool := ambigTokensM.any fun m => reTest m s

/-- The `¥`/`￥` country refinement (`CN → CNY`, `JP → JPY`, else default). -/
def yenCurrency (babel : Babel) (alpha2 : String) : PRes String :=
  let cc := upperS alpha2
  if cc = "CN" then .ok "CNY"
  else if cc = "JP" then .ok "JPY"
  else default_currency_for_alpha2 babel cc

def detect_currency_in_textT (babel : Babel) (text : Toks) (alpha2 : String) :
    PRes (String × String) :=
  let s := cleanT text
  if s = [] then .ok ("", "territory_default")
  else
    match strongScanIso s with
    | some iso => .ok (iso, "symbol")
    | none =>
      if (s.contains '¥' ∨ s.contains '￥') ∧ ¬ reTest threeLettersM s then
        pMap (fun c => (c, "symbol")) (yenCurrency babel alpha2)
      else
        match singleSymScan s with
        | some si =>
          if si.1 = '¥' ∨ si.1 = '￥' then
            pMap (fun c => (c, "symbol")) (yenCurrency babel alpha2)
          else .ok (si.2, "symbol")
        | none =>
          match isoCodeScan (s.map upperA) with
          | some code => .ok (code, "code")
          | none =>
            if ambigTest s then
              pMap (fun d => (d, "ambiguous->default"))
                (default_currency_for_alpha2 babel alpha2)
            else
              pMap (fun d => (d, "territory_default"))
                (default_currency_for_alpha2 babel alpha2)

def detect_currency_in_text (babel : Babel) (text : String) (alpha2 : String) :
    PRes (String × String) :=
  detect_currency_in_textT babel text.data alpha2

/-! ## Spotify scraper's `detect_currency_in_text` (`spotify_scraper.py`
lines 92–290; `_clean_spaces` is character-identical to the apple `_clean`,
so `cleanT` is shared) -/

/-- Spotify `STRONG_TOKENS` (lines 100–152), in source order. -/
def spotifyStrongTokensM : List (Rx × String) :=
  [(litCI "US$", "USD"),
   (litCI "$US", "USD"),
   (litCI "U$S", "USD"),
   (.seq mBnd (litCI "A$"), "AUD"),
   (.seq mBnd (litCI "NZ$"), "NZD"),
   (.seq mBnd (litCI "HK$"), "HKD"),
   (.seq mBnd (litCI "NT$"), "TWD"),
   (.seq mBnd (litCI "S$"), "SGD"),
   (.seq mBnd (litCI "RD$"), "DOP"),
   (.seq mBnd (litCI "N$"), "NAD"),
   (lit "R$", "BRL"),
   (lit "S/.", "PEN"),
   (lit "S/", "PEN"),
   (.seq (lit "Bs") (rxOpt (lit ".")), "BOB"),
   (.seq (lit "Gs") (rxOpt (lit ".")), "PYG"),
   (lit "₲", "PYG"),
   (.seq (lit "Q") (.ahead (.cls .wsDig)), "GTQ"),
   (lit "€", "EUR"), (lit "£", "GBP"), (lit "¥", "JPY"),
   (lit "₹", "INR"), (lit "₩", "KRW"), (lit "₫", "VND"),
   (lit "₺", "TRY"), (lit "₪", "ILS"), (lit "₴", "UAH"),
   (lit "₼", "AZN"), (lit "₾", "GEL"), (lit "₭", "LAK"),
   (lit "฿", "THB"), (lit "₦", "NGN"), (lit "₵", "GHS"),
   (lit "KSh", "KES"), (lit "TSh", "TZS"), (lit "USh", "UGX"),
   (lit "Rp", "IDR"), (lit "zł", "PLN"), (lit "Kč", "CZK"),
   (lit "Ft", "HUF"), (lit "lei", "RON"), (lit "лв", "BGN"),
   (lit "ден", "MKD"), (lit "RM", "MYR"), (lit "₱", "PHP")]

/-- First matching spotify `STRONG_TOKENS` entry (lines 267–270). -/
def spotifyStrongScan (s : Toks) : Option String :=
  (spotifyStrongTokensM.find? fun mi => reTest mi.1 s).map Prod.snd

/-- Spotify `AMBIG_TOKENS` keys (lines 156–163), in source order. -/
def spotifyAmbigM : List Rx :=
  [lit "$",
   rxSeqs [mBnd, lit "kr", rxOpt (lit "."), mBnd],
   rxSeqs [mBnd, lit "Rs", rxOpt (lit "."), mBnd],
   lit "₨",
   rxSeqs [mBnd, litCI "C$", mBnd],
   rxSeqs [mBnd, lit "R", .ahead (.cls .wsDig)]]

def spotifyAmbigTest (s : Toks) : Bool := spotifyAmbigM.any fun m => reTest m s

/-- Spotify `KNOWN_ISO` (lines 246–252): the fallback table's values plus
the literal additions (`TRY` included); only membership is consulted. -/
def SPOTIFY_KNOWN_ISO : List String :=
  SPOTIFY_FALLBACKS.map Prod.snd ++
  ["EUR", "USD", "GBP", "AUD", "CAD", "NZD", "SGD", "HKD", "TWD", "MXN",
   "ARS", "CLP", "COP", "PEN", "BOB", "NIO", "GTQ", "PYG", "UYU",
   "ZAR", "NAD", "CHF", "NOK", "SEK", "DKK", "PLN", "CZK", "HUF", "RON",
   "BGN", "RSD", "BAM", "MKD", "ALL", "GEL", "AMD", "AZN", "UAH", "KZT",
   "MDL", "BYN",
   "TRY", "ILS", "AED", "SAR", "QAR", "KWD", "BHD", "OMR", "PKR", "LKR",
   "NPR", "INR", "BDT", "MMK", "KHR", "VND", "THB", "MYR", "IDR", "PHP",
   "LAK", "MNT",
   "CNY", "JPY", "KRW", "TJS", "TMT", "AFN", "MZN", "AOA", "LRD", "SLL",
   "GMD", "GIP", "DOP", "CRC", "PAB", "HNL", "JMD", "BBD", "BSD", "BZD",
   "EGP", "MAD", "TND", "DZD", "XAF", "XOF", "XPF", "CDF", "RWF", "BIF"]

/-- Spotify's 3-letter-ISO-near-a-digit loop (lines 273–281): first bounded
3-uppercase-letter token of the uppercased text that is in `KNOWN_ISO` and
has a digit within 6 characters — no `TRY` exclusion. -/
def spotifyIsoScan (S : Toks) : Option String :=
  ((reFindAll isoWordM S).find? fun ab =>
      SPOTIFY_KNOWN_ISO.contains (String.mk (slice S ab.1 ab.2)) ∧
        (slice S (ab.1 - 6) (min S.length (ab.2 + 6))).any isDig).map
    fun ab => String.mk (slice S ab.1 ab.2)

/-- Spotify `detect_currency_in_text` (lines 253–290): strong tokens, then
ISO codes near a number, then ambiguous tokens → territory default, then the
territory default (`d or ""` is the identity on the returned strings). -/
def spotify_detect_currency_in_textT (babel : Babel) (text : Toks)
    (alpha2 : String) : PRes (String × String) :=
  let s := cleanT text
  if s = [] then .ok ("", "territory_default")
  else
    match spotifyStrongScan s with
    | some iso => .ok (iso, "symbol")
    | none =>
      match spotifyIsoScan (s.map upperA) with
      | some code => .ok (code, "code")
      | none =>
        if spotifyAmbigTest s then
          pMap (fun d => (d, "ambiguous->default"))
            (spotify_default_currency_for_alpha2 babel alpha2)
        else
          pMap (fun d => (d, "territory_default"))
            (spotify_default_currency_for_alpha2 babel alpha2)

def spotify_detect_currency_in_text (babel : Babel) (text : String)
    (alpha2 : String) : PRes (String × String) :=
  spotify_detect_currency_in_textT babel text.data alpha2

/-! ## `extract_amount_number` (apple scraper, lines 567–604) -/

/-- Loop over `STRONG_TOKENS`: first pattern that matches *and* is followed
by a number; returns that number token. -/
def strongNumScan : List (Rx × String) → Toks → Option Toks
  | [], _ => none
  | mi :: rest, t =>
    match reSearch mi.1 t with
    | some ab =>
      match reSearch numPatM (t.drop ab.2) with
      | some cd => some (slice (t.drop ab.2) cd.1 cd.2)
      | none => strongNumScan rest t
    | none => strongNumScan rest t

/-- `\b([A-Z]{3})\b\s*(num_pat)`. -/
def isoNumM : Rx := rxSeqs [mBnd, rxRep (.cls .upperAZ) 3, mBnd, mWsStar, numPatM]

/-- `(num_pat)\s*\b([A-Z]{3})\b`. -/
def numIsoM : Rx := rxSeqs [numPatM, mWsStar, mBnd, rxRep (.cls .upperAZ) 3, mBnd]

/-- The symbol-class alternation of the fourth branch (line 591),
in source order, matched case-insensitively. -/
def symClassM : Rx :=
  rxAlts
    ([litCI "RMB", litCI "CN¥", litCI "US$",
      .lits false
        (["€", "£", "¥", "￥", "₩", "₫", "₺", "₪", "₴", "₼", "₾", "₭", "฿",
          "₦", "₵", "₱", "₸"].map String.data),
      litCI "NT$", litCI "HK$", litCI "S/.", litCI "S/", litCI "R$",
      litCI "RD$", litCI "N$", litCI "KSh", litCI "TSh", litCI "USh",
      litCI "Rp"])

def symClassNumM : Rx := rxSeqs [symClassM, mWsStar, numPatM]

def extract_amount_numberT (t0 : Toks) : PRes Toks :=
  if stripWsEnds t0 = [] then .ok []
  else
    let t := cleanT t0
    let S := t.map upperA
    match strongNumScan strongTokensM t with
    | some numTok => normNumT numTok
    | none =>
      -- `\b([A-Z]{3})\b\s*(num)` with group(1) ≠ TRY; group(2) recovered as
      -- the match minus the 3 code letters and the following whitespace.
      let b2 : Option Toks :=
        match reSearch isoNumM S with
        | some ab =>
          if slice S ab.1 (ab.1 + 3) ≠ ['T', 'R', 'Y'] then
            some ((slice S (ab.1 + 3) ab.2).dropWhile isWs)
          else none
        | none => none
      match b2 with
      | some g2 => normNumT g2
      | none =>
        -- `(num)\s*\b([A-Z]{3})\b` with group(2) ≠ TRY; the greedy number
        -- token is the match minus its 3 trailing code letters.
        let b3 : Option Toks :=
          match reSearch numIsoM S with
          | some ab =>
            if slice S (ab.2 - 3) ab.2 ≠ ['T', 'R', 'Y'] then
              some (slice S ab.1 (ab.2 - 3))
            else none
          | none => none
        match b3 with
        | some g1 => normNumT g1
        | none =>
          match reSearch symClassNumM t with
          | some ab =>
            let g0 := slice t ab.1 ab.2
            (match reSearch numPatM g0 with
             | some cd => normNumT (slice g0 cd.1 cd.2)
             | none => .ok [])
          | none =>
            match (reFindAll numPatM t).getLast? with
            | some ab => normNumT (slice t ab.1 ab.2)
            | none => .ok []

def extract_amount_number (text : String) : PRes String :=
  pMap String.mk (extract_amount_numberT text.data)

/-! ## `normalize_for_price_extraction` (lines 610–638) -/

/-- `(\d)\s*([.,])\s*(\d)` -/
def digitPunctM : Rx := rxSeqs [mDig, mWsStar, .cls .sep, mWsStar, mDig]

/-- `(CURRENCY_TOKEN)\s+(\d)`, case-insensitive. -/
def curSpDigM : Rx := rxSeqs [curTokCIM, mWsPlus, mDig]

/-- Replacement `\1\2` for `curSpDigM`.  `CURRENCY_TOKEN` carries its own
capture group, so both `\1` (the outer group) and `\2` (the inner one) are
the currency text and the matched digit is dropped: `"$ 8"` becomes `"$$"`. -/
def curSpDigRepl (g : Toks) : Toks :=
  let cur := ((g.dropLast).reverse.dropWhile isWs).reverse
  cur ++ cur

/-- `(\d{1,3})\s*(CURRENCY_TOKEN)\s*(\d{3})\b`, case-insensitive. -/
def dCurDM : Rx :=
  rxSeqs [rxRepRange mDig 1 3, mWsStar, curTokCIM, mWsStar, rxRep mDig 3, mBnd]

/-- Replacement `\2\1 \3` for `dCurDM`.  `CURRENCY_TOKEN` carries its own
capture group, so in `(\d{1,3})\s*(CURRENCY_TOKEN)\s*(\d{3})\b` group 3 is
the *inner* currency group, not the three trailing digits: Python emits
currency, leading digits, a space, then the currency again, dropping the
3-digit group (`"8 $ 500"` becomes `"$8 $"`). -/
def dCurDRepl (g : Toks) : Toks :=
  let d1 := g.takeWhile isDig
  let mid := stripWsEnds ((g.drop d1.length).take (g.length - 3 - d1.length))
  mid ++ d1 ++ ' ' :: mid

def normalize_for_price_extractionT (s0 : Toks) : Toks :=
  let s := cleanT s0
  if s = [] then []
  else
    let s := reSubAll mWsPlus (fun _ => [' ']) s
    let s := reSubAll digitPunctM (fun g => g.filter fun c => ¬ isWs c) s
    let s := reSubAll curSpDigM curSpDigRepl s
    reSubAll dCurDM dCurDRepl s

def normalize_for_price_extraction (s : String) : String :=
  String.mk (normalize_for_price_extractionT s.data)

/-! ## Recurring-price selector regexes (lines 727–769) -/

/-- Character class `[eéê]` under `(?i)`. -/
def mEAcc : Rx := .cls .eAcc

/-- `MONTHLY_POS_RE`, alternatives in source order (all case-insensitive). -/
def monthlyM : Rx :=
  rxAlts
    [rxSeqs [lit "/", mWsStar, litCI "month", mBnd],
     rxSeqs [litCI "per", mWsPlus, litCI "month", mBnd],
     .seq (litCI "monthly") mBnd,
     rxSeqs [lit "/", mWsStar, litCI "mo", mBnd],
     rxSeqs [lit "/", mWsStar, litCI "mth", mBnd],
     rxSeqs [mBnd, litCI "al", mWsPlus, litCI "m", mEAcc, litCI "s", mBnd],
     rxSeqs [mBnd, litCI "por", mWsPlus, litCI "m", mEAcc, litCI "s", mBnd],
     rxSeqs [lit "/", litCI "m", mEAcc, litCI "s", mBnd],
     rxSeqs [mBnd, litCI "mensual", rxOpt (litCI "es"), mBnd],
     rxSeqs [mBnd, litCI "par", mWsPlus, litCI "mois", mBnd],
     rxSeqs [lit "/", litCI "mois", mBnd],
     rxSeqs [mBnd, litCI "mensuel", rxOpt (.alt (litCI "le") (litCI "s")), mBnd],
     rxSeqs [mBnd, litCI "pro", mWsPlus, litCI "monat", mBnd],
     rxSeqs [lit "/", litCI "monat", mBnd],
     rxSeqs [mBnd, litCI "monatlich", mBnd],
     rxSeqs [mBnd, litCI "al", mWsPlus, litCI "mese", mBnd],
     rxSeqs [lit "/", litCI "mese", mBnd],
     rxSeqs [mBnd, litCI "mensile", mBnd],
     rxSeqs [mBnd, litCI "per", mWsPlus, litCI "maand", mBnd],
     rxSeqs [lit "/", litCI "maand", mBnd],
     rxSeqs [mBnd, litCI "maandelijks", mBnd],
     lit "/月", lit "毎月", lit "每月", lit "月額", lit "/월", lit "매월",
     rxSeqs [lit "/", rxAlts [litCI "bulan", litCI "ay", lit "เดือน"], mBnd],
     rxSeqs [litCI "per", mWsPlus, litCI "bulan", mBnd],
     rxSeqs [litCI "ayl", .cls .iTk,
       litCI "k", mBnd],
     .seq (lit "ต่อเดือน") mBnd]

/-- `THEN_POS_RE = (?i)\b(then|thereafter|after|…)\b`. -/
def thenM : Rx :=
  rxSeqs
    [mBnd,
     rxAlts
       [litCI "then", litCI "thereafter", litCI "after",
        litCI "luego",
        rxSeqs [litCI "despu", .cls .eAcu, litCI "s"],
        rxSeqs [litCI "a", mWsPlus, litCI "partir", mWsPlus, litCI "de"],
        litCI "ensuite", litCI "puis",
        rxSeqs [litCI "apr", .cls .eGrave,
          litCI "s"],
        litCI "danach",
        lit "之后", lit "以後", lit "その後", lit "以降",
        lit "이후", lit "다음",
        litCI "depois",
        rxSeqs [litCI "ap", .cls .oAcc,
          litCI "s"]],
     mBnd]

/-- `INTRO_NEG_RE = (?i)\b(try|trial|free|…)\b`. -/
def introM : Rx :=
  rxSeqs
    [mBnd,
     rxAlts
       [litCI "try", litCI "trial", litCI "free", litCI "offer",
        litCI "limited", litCI "intro",
        rxSeqs [litCI "new", mWsPlus, litCI "subscriber", rxOpt (sCI "s")],
        rxSeqs [mBnd, litCI "for", mWsPlus, rxPlus mDig, mWsPlus, litCI "month",
          rxOpt (sCI "s"), mBnd],
        rxSeqs [mBnd, rxPlus mDig, mWsPlus, litCI "mes", rxOpt (litCI "es"), mBnd],
        rxSeqs [mBnd, litCI "por", mWsPlus, rxPlus mDig, mWsPlus, litCI "mes",
          rxOpt (litCI "es"), mBnd],
        rxSeqs [mBnd, rxPlus mDig, mWsPlus, litCI "mois", mBnd],
        rxSeqs [mBnd, rxPlus mDig, mWsPlus, litCI "monat", rxOpt (sCI "e"), mBnd],
        rxSeqs [mBnd, rxPlus mDig, mWsPlus, .alt (lit "个月") (litCI "か月"), mBnd],
        rxSeqs [mBnd, rxPlus mDig, mWsPlus, lit "개월", mBnd]],
     mBnd]

/-! ## `pick_best_price_token` (lines 772–858) -/

/-- Value comparisons on parsed float literals (all values arising here are
the exact decimal values of `_normalize_number` outputs). -/
def fpIsNeg (x : FParts) : Bool := x.neg ∧ x.mant ≠ 0

def fpMx (x : FParts) : Mx := mxDec x.mant x.scale

def fpLT (x y : FParts) : Bool :=
  if fpIsNeg x then (if fpIsNeg y then mxLT (fpMx y) (fpMx x) else true)
  else (if fpIsNeg y then false else mxLT (fpMx x) (fpMx y))

def fpLE (x y : FParts) : Bool :=
  if fpIsNeg x then (if fpIsNeg y then mxLE (fpMx y) (fpMx x) else true)
  else (if fpIsNeg y then false else mxLE (fpMx x) (fpMx y))

/-- One scanned candidate. -/
structure Cand where
  tok : Toks
  num : FParts
  start : ℕ
  month : Bool
  intro : Bool
  thenF : Bool
  deriving DecidableEq

def fpOne : FParts := ⟨false, 1, 0⟩

def fpFifty : FParts := ⟨false, 50, 0⟩

/-- The scoring function of selection branch 1 (integer part of the score
tuple `(s, value)`). -/
def scoreInt (c : Cand) : ℤ :=
  10 + (if c.thenF then 5 else 0) - (if c.intro then 4 else 0) -
    (if fpLT c.num fpOne then 8 else 0)

/-- Python tuple `>` on `(int, float)` keys. -/
def keyGT (a b : ℤ × FParts) : Bool :=
  a.1 > b.1 ∨ (a.1 = b.1 ∧ fpLT b.2 a.2)

/-- Python `max(xs, key=key)` (first maximum wins); raises on empty input. -/
def pyMaxBy (key : Cand → ℤ × FParts) : List Cand → PRes Cand
  | [] => .error ()
  | c :: cs =>
    .ok (cs.foldl (fun acc x => if keyGT (key x) (key acc) then x else acc) c)

/-- Loop body of the candidate scan: `num = extract(…); if not num: continue;
try: val = float(num) except: continue; …append`. -/
def pickStep (s : Toks) (acc : List Cand) (ab : ℕ × ℕ) : PRes (List Cand) := do
  let tok := slice s ab.1 ab.2
  let num ← extract_amount_numberT tok
  if num = [] then .ok acc
  else
    pTry
      (do
        let v ← pyFloat num
        let ctx := slice s (ab.1 - 60) (min s.length (ab.2 + 60))
        .ok (acc ++
          [⟨tok, v, ab.1, reTest monthlyM ctx, reTest introM ctx,
            reTest thenM ctx⟩]))
      (fun _ => .ok acc)

/-- Selection branches 3 and 4: `if any_intro: return None` else the
largest-value candidate. -/
def pickTail (cands : List Cand) : PRes (Option (Toks × FParts)) :=
  if cands.any (·.intro) then .ok none
  else pMap (fun b => some (b.tok, b.num)) (pyMaxBy (fun c => (0, c.num)) cands)

def pick_best_price_tokenT (text : Toks) : PRes (Option (Toks × FParts)) :=
  if text = [] then .ok none
  else
    let s := normalize_for_price_extractionT text
    let ms := reFindAll bannerM s
    if ms = [] then .ok none
    else do
      let cands ← ms.foldlM (pickStep s) []
      if cands = [] then .ok none
      else
        let monthly := cands.filter (·.month)
        if monthly ≠ [] then do
          let best ← pyMaxBy (fun c => (scoreInt c, c.num)) monthly
          .ok (some (best.tok, best.num))
        else
          match (reFindAll thenM s).getLast? with
          | some pv =>
            let after := cands.filter fun c => c.start > pv.1
            if after ≠ [] then do
              let best ← pyMaxBy (fun c => (if c.intro then -5 else 0, c.num)) after
              .ok (some (best.tok, best.num))
            else pickTail cands
          | none => pickTail cands

def pick_best_price_token (text : String) : PRes (Option (String × FParts)) :=
  pMap (Option.map fun x => (String.mk x.1, x.2)) (pick_best_price_tokenT text.data)

/-! ## `resolve_dollar_ambiguity` (lines 532–548) -/

/-- `(?i)\bUS\$|\$US|\bUSD\b`. -/
def usdMarkerM : Rx :=
  rxAlts [.seq mBnd (litCI "US$"), litCI "$US", rxSeqs [mBnd, litCI "USD", mBnd]]

/-- `resolve_dollar_ambiguity(iso_guess, raw_token, amount, alpha2,
context_text)`.  `amount` is untyped in the source (callers pass the float
price value); it is modelled as `Option FParts`, `none` meaning a value
`float()` rejects, which the source's `try/except` turns into a fall-through. -/
def resolve_dollar_ambiguity (babel : Babel) (iso_guess raw_token : String)
    (amount : Option FParts) (alpha2 : String) (context_text : String) :
    PRes (String × Option String) :=
  if raw_token ≠ "$" then .ok (iso_guess, none)
  else do
    let default_iso ← default_currency_for_alpha2 babel alpha2
    if DOLLAR_CURRENCIES.contains default_iso then .ok (iso_guess, none)
    else if reTest usdMarkerM context_text.data then .ok ("USD", some "context-usd")
    else if alpha2 = "KW" ∨ alpha2 = "QA" ∨ alpha2 = "BH" ∨ alpha2 = "OM" then
      .ok ("USD", some "gcc-usd")
    else
      pTry
        (do
          let v ← (match amount with | some p => (.ok p : PRes FParts) | none => .error ())
          if fpLE v fpFifty then .ok ("USD", some "small-$-usd")
          else .ok (iso_guess, none))
        (fun _ => .ok (iso_guess, none))

/-! ## Specification-side definitions for the number claims -/

/-- The number claims' input domain (spec §4.1: "a string containing only
digits and separator punctuation (commas, periods, spaces)"). -/
def okNumChar (c : Char) : Bool := isDig c ∨ c = '.' ∨ c = ',' ∨ c = ' '

/-- The decimal value the specification ascribes to `normalizeNumber`,
as an exact pair `(integer mantissa N, fractional digit count f)` denoting
`N / 10^f`: if the space-stripped token ends in a separator plus one or two
digits, that trailing group is the fractional part and the remainder with
separators removed the integer part; otherwise the token with all
separators stripped is read as an integer; no digits at all → `none`. -/
def specNormParts (p : Toks) : Option (ℕ × ℕ) :=
  let q := p.filter (· ≠ ' ')
  match tailDecMatch q with
  | some bf => some (natOfChars (bf.1.filter notSepPC ++ bf.2), bf.2.length)
  | none =>
    let d := q.filter notSepPC
    if d = [] then none else some (natOfChars d, 0)

/-- Canonical CPython rendering of the nonnegative decimal `N / 10^f`. -/
def pyCanonPair (N f : ℕ) : Toks :=
  if N = 0 then ['0', '.', '0']
  else fmtPositional (N / 10 ^ tenVal N) ((tenVal N : ℤ) - f)

/-- Rational value of a parsed float literal (statement-level glue). -/
def fpToQ (p : FParts) : ℚ :=
  (if p.neg then -1 else 1) * p.mant * (10 : ℚ) ^ p.scale

/-! ## Concrete inputs and stub babel databases used by the claims -/

/-- The spec's promo-vs-recurring banner scenario. -/
def bannerText : String := "3 months for $0.99, then $10.99/month"

/-- A banner whose only intro-flagged candidate is the promo price while a
plain standard price is also present. -/
def failText : String :=
  "Try this great new deal today: $0.99 this week only because people like a bargain, and the standard plan costs $12.99 each billing cycle."

/-- Babel stub: the database knows `EC -> ECS` and nothing else. -/
def babelEC : Babel := fun c => .ok (if c = "EC" then ["ECS"] else [])

/-- Babel stub: the database knows no territory. -/
def babel0 : Babel := fun _ => .ok []

/-! ## Digit-string toolbox -/

theorem isDig_cases {c : Char} (h : isDig c = true) :
    c = '0' ∨ c = '1' ∨ c = '2' ∨ c = '3' ∨ c = '4' ∨
    c = '5' ∨ c = '6' ∨ c = '7' ∨ c = '8' ∨ c = '9' := by
  simpa [isDig] using h

theorem digChar_isDig {d : ℕ} (h : d < 10) : isDig (digChar d) = true := by
  interval_cases d <;> decide

theorem charToDig_digChar {d : ℕ} (h : d < 10) : charToDig (digChar d) = d := by
  interval_cases d <;> decide

theorem digChar_charToDig {c : Char} (h : isDig c = true) :
    digChar (charToDig c) = c := by
  rcases isDig_cases h with h | h | h | h | h | h | h | h | h | h <;> subst h <;> decide

theorem charToDig_lt {c : Char} : charToDig c < 10 := by
  unfold charToDig; split_ifs <;> omega

theorem isDig_not_special {c : Char} (h : isDig c = true) :
    c ≠ '.' ∧ c ≠ ',' ∧ c ≠ ' ' ∧ isWs c = false ∧ isSepPC c = false ∧
      notSepPC c = true := by
  rcases isDig_cases h with h | h | h | h | h | h | h | h | h | h <;> subst h <;> decide

/-- `natOfChars` with an explicit accumulator. -/
theorem natOfChars_foldl_seed (b : Toks) :
    ∀ a : ℕ, b.foldl (fun a c => 10 * a + charToDig c) a =
      a * 10 ^ b.length + natOfChars b := by
  induction b with
  | nil => intro a; simp [natOfChars]
  | cons c t ih =>
    intro a
    show t.foldl _ (10 * a + charToDig c) = _
    rw [ih (10 * a + charToDig c)]
    have h2 : natOfChars (c :: t) = charToDig c * 10 ^ t.length + natOfChars t := by
      show t.foldl _ (10 * 0 + charToDig c) = _
      rw [ih (10 * 0 + charToDig c)]; ring
    rw [h2]; simp [List.length_cons]; ring

theorem natOfChars_append (a b : Toks) :
    natOfChars (a ++ b) = natOfChars a * 10 ^ b.length + natOfChars b := by
  unfold natOfChars
  rw [List.foldl_append, natOfChars_foldl_seed]
  rfl

theorem natOfChars_nil : natOfChars [] = 0 := rfl

theorem natOfChars_cons_zero (b : Toks) : natOfChars ('0' :: b) = natOfChars b := by
  have : ('0' :: b) = ['0'] ++ b := rfl
  rw [this, natOfChars_append]; simp [natOfChars, charToDig]

theorem natOfChars_replicate_zero (k : ℕ) :
    natOfChars (List.replicate k '0') = 0 := by
  induction k with
  | zero => rfl
  | succ n ih => rw [List.replicate_succ, natOfChars_cons_zero, ih]

theorem natOfChars_lt {ds : Toks} (h : ∀ c ∈ ds, isDig c = true) :
    natOfChars ds < 10 ^ ds.length := by
  induction ds with
  | nil => simp [natOfChars]
  | cons c t ih =>
    have hc : charToDig c < 10 := charToDig_lt
    have ht := ih (fun d hd => h d (List.mem_cons_of_mem _ hd))
    have : natOfChars (c :: t) = charToDig c * 10 ^ t.length + natOfChars t := by
      have : (c :: t) = [c] ++ t := rfl
      rw [this, natOfChars_append]; simp [natOfChars]
    rw [this]
    have h1 : charToDig c * 10 ^ t.length ≤ 9 * 10 ^ t.length := by
      have : charToDig c ≤ 9 := by omega
      exact Nat.mul_le_mul_right _ this
    calc charToDig c * 10 ^ t.length + natOfChars t
        < charToDig c * 10 ^ t.length + 10 ^ t.length := by omega
      _ ≤ 9 * 10 ^ t.length + 10 ^ t.length := by omega
      _ = 10 ^ (t.length + 1) := by ring
      _ = 10 ^ (c :: t).length := by simp

/-- Little-endian digit value. -/
def vLE : List ℕ → ℕ
  | [] => 0
  | d :: t => d + 10 * vLE t

theorem natDigitsRevGo_val :
    ∀ f n, n < 10 ^ f → vLE (natDigitsRevGo f n) = n := by
  intro f
  induction f with
  | zero => intro n h; interval_cases n; rfl
  | succ m ih =>
    intro n h
    unfold natDigitsRevGo
    by_cases h0 : n = 0
    · simp [h0, vLE]
    · simp only [h0, if_false]
      have hdiv : n / 10 < 10 ^ m := by
        rw [Nat.div_lt_iff_lt_mul (by norm_num)]
        calc n < 10 ^ (m + 1) := h
          _ = 10 ^ m * 10 := by ring
      rw [vLE, ih (n / 10) hdiv]
      omega

theorem natDigitsRevGo_lt10 :
    ∀ f n d, d ∈ natDigitsRevGo f n → d < 10 := by
  intro f
  induction f with
  | zero => intro n d h; simp [natDigitsRevGo] at h
  | succ m ih =>
    intro n d h
    unfold natDigitsRevGo at h
    by_cases h0 : n = 0
    · simp [h0] at h
    · simp only [h0, if_false, List.mem_cons] at h
      rcases h with h | h
      · omega
      · exact ih _ _ h

theorem natDigitsRevGo_len_le :
    ∀ f L n, n < 10 ^ L → L ≤ f → (natDigitsRevGo f n).length ≤ L := by
  intro f
  induction f with
  | zero => intro L n h hL; simp [natDigitsRevGo]
  | succ m ih =>
    intro L n h hL
    unfold natDigitsRevGo
    by_cases h0 : n = 0
    · simp [h0]
    · simp only [h0, if_false, List.length_cons]
      have hL1 : 1 ≤ L := by
        by_contra hc
        push_neg at hc
        interval_cases L
        simp at h; omega
      have hdiv : n / 10 < 10 ^ (L - 1) := by
        rw [Nat.div_lt_iff_lt_mul (by norm_num)]
        calc n < 10 ^ L := h
          _ = 10 ^ (L - 1) * 10 := by
              rw [← pow_succ]; congr 1; omega
      have := ih (L - 1) (n / 10) hdiv (by omega)
      omega

theorem natDigitsRevGo_val_lt :
    ∀ f n, n < 10 ^ f → n < 10 ^ (natDigitsRevGo f n).length := by
  intro f
  induction f with
  | zero => intro n h; simpa [natDigitsRevGo] using h
  | succ m ih =>
    intro n h
    unfold natDigitsRevGo
    by_cases h0 : n = 0
    · simp [h0]
    · simp only [h0, if_false, List.length_cons]
      have hdiv : n / 10 < 10 ^ m := by
        rw [Nat.div_lt_iff_lt_mul (by norm_num)]
        calc n < 10 ^ (m + 1) := h
          _ = 10 ^ m * 10 := by ring
      have := ih (n / 10) hdiv
      have h2 : n < (n / 10 + 1) * 10 := by omega
      calc n < (n / 10 + 1) * 10 := h2
        _ ≤ 10 ^ (natDigitsRevGo m (n / 10)).length * 10 := by
            have : n / 10 + 1 ≤ 10 ^ (natDigitsRevGo m (n / 10)).length := this
            exact Nat.mul_le_mul_right _ this
        _ = 10 ^ ((natDigitsRevGo m (n / 10)).length + 1) := by ring

theorem natDigitsRevGo_zero : ∀ f, natDigitsRevGo f 0 = [] := by
  intro f; cases f <;> simp [natDigitsRevGo]

theorem natDigitsRevGo_le_val :
    ∀ f n, n ≠ 0 → 10 ^ ((natDigitsRevGo f n).length - 1) ≤ n := by
  intro f
  induction f with
  | zero => intro n h0; simp [natDigitsRevGo]; omega
  | succ m ih =>
    intro n h0
    unfold natDigitsRevGo
    simp only [h0, if_false, List.length_cons]
    by_cases hq : n / 10 = 0
    · rw [hq, natDigitsRevGo_zero]
      simpa using Nat.one_le_iff_ne_zero.mpr h0
    · have h1 := ih (n / 10) hq
      rcases Nat.eq_zero_or_pos (natDigitsRevGo m (n / 10)).length with h | h
    
      · rw [h]
        simpa using Nat.one_le_iff_ne_zero.mpr h0
      · have h10 : 10 ^ ((natDigitsRevGo m (n / 10)).length - 1) * 10 ≤ n := by
          calc 10 ^ ((natDigitsRevGo m (n / 10)).length - 1) * 10
              ≤ n / 10 * 10 := Nat.mul_le_mul_right _ h1
            _ ≤ n := Nat.div_mul_le_self n 10
        calc 10 ^ ((natDigitsRevGo m (n / 10)).length + 1 - 1)
            = 10 ^ ((natDigitsRevGo m (n / 10)).length - 1) * 10 := by
              rw [← pow_succ]; congr 1; omega
          _ ≤ n := h10

theorem natOfChars_map_digChar {l : List ℕ} (h : ∀ d ∈ l, d < 10) :
    natOfChars ((l.reverse).map digChar) = vLE l := by
  induction l with
  | nil => rfl
  | cons d t ih =>
    have hd : d < 10 := h d (List.mem_cons_self _ _)
    have ht := ih (fun e he => h e (List.mem_cons_of_mem _ he))
    rw [List.reverse_cons, List.map_append, natOfChars_append]
    simp only [List.map_cons, List.map_nil, List.length_cons, List.length_nil]
    have h1 : natOfChars [digChar d] = d := by
      show 10 * 0 + charToDig (digChar d) = d
      rw [charToDig_digChar hd]; omega
    rw [h1, ht, vLE]
    ring

theorem natToChars_val {n : ℕ} (h : n < 10 ^ 4000) :
    natOfChars (natToChars n) = n := by
  unfold natToChars
  by_cases h0 : n = 0
  · subst h0; rfl
  · simp only [h0, if_false]
    unfold natDigitsRev
    rw [natOfChars_map_digChar (l := natDigitsRevGo 4000 n)
      (fun d hd => natDigitsRevGo_lt10 4000 n d hd)]
    exact natDigitsRevGo_val 4000 n h

theorem natToChars_digits (n : ℕ) : ∀ c ∈ natToChars n, isDig c = true := by
  unfold natToChars
  by_cases h0 : n = 0
  · subst h0; intro c hc; simp at hc; subst hc; decide
  · simp only [h0, if_false]
    intro c hc
    rcases List.mem_map.mp hc with ⟨d, hd, rfl⟩
    exact digChar_isDig (natDigitsRevGo_lt10 _ _ _ (List.mem_reverse.mp hd))

theorem natToChars_length {n : ℕ} (h0 : n ≠ 0) :
    (natToChars n).length = digitCount10 n := by
  unfold natToChars digitCount10 natDigitsRev
  simp [h0]

theorem digitCount10_le {n L : ℕ} (h : n < 10 ^ L) (hL : L ≤ 4000) :
    digitCount10 n ≤ L :=
  natDigitsRevGo_len_le 4000 L n h hL

theorem digitCount10_lt {n : ℕ} (h : n < 10 ^ 4000) :
    n < 10 ^ digitCount10 n :=
  natDigitsRevGo_val_lt 4000 n h

theorem digitCount10_ge {n : ℕ} (h0 : n ≠ 0) :
    10 ^ (digitCount10 n - 1) ≤ n :=
  natDigitsRevGo_le_val 4000 n h0

theorem digitCount10_pos {n : ℕ} (h0 : n ≠ 0) : 1 ≤ digitCount10 n := by
  by_contra hc
  push_neg at hc
  interval_cases h : digitCount10 n
  have h4 : n < 10 ^ 4000 ∨ ¬ n < 10 ^ 4000 := em _
  rcases h4 with h4 | h4
  · have := digitCount10_lt h4
    rw [h] at this
    simp at this
    omega
  · unfold digitCount10 natDigitsRev at h
    have hlen := natDigitsRevGo_le_val 4000 n h0
    push_neg at h4
    -- n ≥ 10^4000 > 0, but the digit list is empty: contradiction with h
    cases hm : natDigitsRevGo 4000 n with
    | nil =>
      unfold natDigitsRevGo at hm
      simp [h0] at hm
    | cons a t => rw [hm] at h; simp at h

/-! ### `tenVal`: factors of ten -/

theorem tenValGo_spec :
    ∀ f n, n ≠ 0 → n < 10 ^ f →
      n = n / 10 ^ tenValGo f n * 10 ^ tenValGo f n ∧
        ¬ 10 ∣ n / 10 ^ tenValGo f n := by
  intro f
  induction f with
  | zero => intro n h0 h; interval_cases n; omega
  | succ m ih =>
    intro n h0 h
    unfold tenValGo
    by_cases hc : n % 10 = 0 ∧ n ≠ 0
    · rw [if_pos hc]
      have h10 : 10 ∣ n := Nat.dvd_of_mod_eq_zero hc.1
      have hq0 : n / 10 ≠ 0 := by
        intro hz
        rcases h10 with ⟨k, hk⟩
        omega
      have hqlt : n / 10 < 10 ^ m := by
        rw [Nat.div_lt_iff_lt_mul (by norm_num)]
        calc n < 10 ^ (m + 1) := h
          _ = 10 ^ m * 10 := by ring
      obtain ⟨ha, hb⟩ := ih (n / 10) hq0 hqlt
      constructor
      · have hrw : n / 10 ^ (1 + tenValGo m (n / 10)) = n / 10 / 10 ^ tenValGo m (n / 10) := by
          rw [pow_add, pow_one, Nat.div_div_eq_div_mul]
        rw [hrw]
        have : n = n / 10 * 10 := by
          rcases h10 with ⟨k, hk⟩
          omega
        calc n = n / 10 * 10 := this
          _ = n / 10 / 10 ^ tenValGo m (n / 10) * 10 ^ tenValGo m (n / 10) * 10 := by
              rw [← ha]
          _ = n / 10 / 10 ^ tenValGo m (n / 10) * 10 ^ (1 + tenValGo m (n / 10)) := by
              rw [pow_add, pow_one]; ring
      · have hrw : n / 10 ^ (1 + tenValGo m (n / 10)) = n / 10 / 10 ^ tenValGo m (n / 10) := by
          rw [pow_add, pow_one, Nat.div_div_eq_div_mul]
        rw [hrw]; exact hb
    · rw [if_neg hc]
      simp only [pow_zero, Nat.div_one]
      refine ⟨(mul_one n).symm, ?_⟩
      intro hdvd
      rcases hdvd with ⟨k, hk⟩
      exact hc ⟨by omega, h0⟩

theorem tenVal_spec {n : ℕ} (h0 : n ≠ 0) (h : n < 10 ^ 4000) :
    n = n / 10 ^ tenVal n * 10 ^ tenVal n ∧ ¬ 10 ∣ n / 10 ^ tenVal n :=
  tenValGo_spec 4000 n h0 h

/-- Uniqueness of the `m · 10^j`, `¬ 10 ∣ m` decomposition. -/
theorem ten_decomp_unique {m m' j j' : ℕ} (hm : ¬ 10 ∣ m) (hm' : ¬ 10 ∣ m')
    (h : m * 10 ^ j = m' * 10 ^ j') : m = m' ∧ j = j' := by
  have hmn : m ≠ 0 := fun hz => hm (hz ▸ dvd_zero 10)
  have hmn' : m' ≠ 0 := fun hz => hm' (hz ▸ dvd_zero 10)
  rcases Nat.lt_trichotomy j j' with hj | hj | hj
  · exfalso
    apply hm
    have hjj : j' - j + j = j' := by omega
    have hth : m * 10 ^ j = m' * 10 ^ (j' - j) * 10 ^ j := by
      rw [mul_assoc, ← pow_add, hjj]
      exact h
    have hpos : 0 < 10 ^ j := pow_pos (by norm_num : (0:ℕ) < 10) j
    have hmm : m = m' * 10 ^ (j' - j) := Nat.eq_of_mul_eq_mul_right hpos hth
    rw [hmm]
    exact Dvd.dvd.mul_left (dvd_pow_self 10 (by omega)) m'
  · refine ⟨?_, hj⟩
    subst hj
    have hpos : 0 < 10 ^ j := pow_pos (by norm_num : (0:ℕ) < 10) j
    exact Nat.eq_of_mul_eq_mul_right hpos h
  · exfalso
    apply hm'
    have hjj : j - j' + j' = j := by omega
    have hth : m' * 10 ^ j' = m * 10 ^ (j - j') * 10 ^ j' := by
      rw [mul_assoc, ← pow_add, hjj]
      exact h.symm
    have hpos : 0 < 10 ^ j' := pow_pos (by norm_num : (0:ℕ) < 10) j'
    have hmm : m' = m * 10 ^ (j - j') := Nat.eq_of_mul_eq_mul_right hpos hth
    rw [hmm]
    exact Dvd.dvd.mul_left (dvd_pow_self 10 (by omega)) m

theorem tenVal_of_decomp {m k : ℕ} (hm : ¬ 10 ∣ m) (h : m * 10 ^ k < 10 ^ 4000) :
    tenVal (m * 10 ^ k) = k ∧ m * 10 ^ k / 10 ^ tenVal (m * 10 ^ k) = m := by
  have hmn : m ≠ 0 := fun hz => hm (hz ▸ dvd_zero 10)
  have h0 : m * 10 ^ k ≠ 0 := by
    have hp : 0 < 10 ^ k := pow_pos (by norm_num : (0:ℕ) < 10) k
    exact Nat.mul_ne_zero hmn (by omega)
  obtain ⟨ha, hb⟩ := tenVal_spec h0 h
  obtain ⟨h1, h2⟩ := ten_decomp_unique hb hm ha.symm
  exact ⟨h2, h1⟩

/-! ### List helpers -/

theorem isDig_ne_marks {c : Char} (h : isDig c = true) :
    c ≠ '+' ∧ c ≠ '-' ∧ c ≠ '.' ∧ c ≠ 'e' ∧ c ≠ 'E' ∧ c ≠ '0' → True := fun _ => trivial

theorem isDig_ne_sign {c : Char} (h : isDig c = true) :
    c ≠ '+' ∧ c ≠ '-' := by
  rcases isDig_cases h with h | h | h | h | h | h | h | h | h | h <;> subst h <;> decide

theorem takeWhile_all {p : Char → Bool} {l : Toks} (h : ∀ c ∈ l, p c = true) :
    l.takeWhile p = l := by
  induction l with
  | nil => rfl
  | cons c t ih =>
    simp [List.takeWhile_cons, h c (List.mem_cons_self _ _),
      ih (fun d hd => h d (List.mem_cons_of_mem _ hd))]

theorem takeWhile_append_cons {p : Char → Bool} {a : Toks} {b : Char} {t : Toks}
    (ha : ∀ c ∈ a, p c = true) (hb : p b = false) :
    ((a ++ b :: t).takeWhile p) = a := by
  induction a with
  | nil => simp [List.takeWhile_cons, hb]
  | cons c u ih =>
    simp [List.takeWhile_cons, ha c (List.mem_cons_self _ _),
      ih (fun d hd => ha d (List.mem_cons_of_mem _ hd))]

theorem dropWhile_all_false {p : Char → Bool} {l : Toks} (h : ∀ c ∈ l, p c = false) :
    l.dropWhile p = l := by
  cases l with
  | nil => rfl
  | cons c t => simp [List.dropWhile_cons, h c (List.mem_cons_self _ _)]

theorem stripWsEnds_noWs {l : Toks} (h : ∀ c ∈ l, isWs c = false) :
    stripWsEnds l = l := by
  unfold stripWsEnds
  rw [dropWhile_all_false h,
    dropWhile_all_false (fun c hc => h c (List.mem_reverse.mp hc)),
    List.reverse_reverse]

theorem filter_all_true {p : Char → Bool} {l : Toks} (h : ∀ c ∈ l, p c = true) :
    l.filter p = l := by
  induction l with
  | nil => rfl
  | cons c t ih =>
    simp [List.filter_cons, h c (List.mem_cons_self _ _),
      ih (fun d hd => h d (List.mem_cons_of_mem _ hd))]

theorem isSepPC_cases {c : Char} (h : isSepPC c = true) : c = '.' ∨ c = ',' := by
  simpa [isSepPC] using h

theorem filter_notSep_eq_filter_isDig {l : Toks}
    (h : ∀ c ∈ l, isDig c = true ∨ isSepPC c = true) :
    l.filter notSepPC = l.filter isDig := by
  induction l with
  | nil => rfl
  | cons c t ih =>
    have ht := ih (fun d hd => h d (List.mem_cons_of_mem _ hd))
    rcases h c (List.mem_cons_self _ _) with hc | hc
    · have h1 := (isDig_not_special hc).2.2.2.2.2
      simp [List.filter_cons, hc, h1, ht]
    · have hnd : isDig c = false := by
        rcases isSepPC_cases hc with h' | h' <;> subst h' <;> decide
      have hns : notSepPC c = false := by simp [notSepPC, hc]
      simp [List.filter_cons, hns, hnd, ht]

/-! ### `parseParts` on digit shapes -/

theorem parseParts_nil : parseParts [] = none := rfl

theorem parseParts_digits_dot {a b : Toks} (ha : ∀ c ∈ a, isDig c = true)
    (hb : ∀ c ∈ b, isDig c = true) (hbne : b ≠ []) :
    parseParts (a ++ '.' :: b) =
      some ⟨false, natOfChars (a ++ b), -(b.length : ℤ)⟩ := by
  have hdot : isDig '.' = false := by decide
  have htb : b.takeWhile isDig = b := takeWhile_all hb
  cases a with
  | nil =>
    have htake : (('.' :: b).takeWhile isDig) = [] := by
      simp [List.takeWhile_cons, hdot]
    unfold parseParts
    simp only [List.nil_append]
    rw [if_neg (show ¬('.' = '+') by decide), if_neg (show ¬('.' = '-') by decide)]
    simp only [htake, List.length_nil, List.drop_zero]
    simp only [if_true, true_and, eq_self_iff_true]
    simp only [htb, List.drop_length]
    rw [if_neg hbne]
    simp
  | cons c u =>
    have hc := isDig_ne_sign (ha c (List.mem_cons_self _ _))
    have htake : (((c :: u) ++ '.' :: b).takeWhile isDig) = c :: u :=
      takeWhile_append_cons ha hdot
    have hdrop : (((c :: u) ++ '.' :: b).drop (c :: u).length) = '.' :: b := by
      simpa using List.drop_left (c :: u) ('.' :: b)
    unfold parseParts
    simp only [List.cons_append]
    simp only [if_neg hc.1, if_neg hc.2]
    simp only [← List.cons_append, htake, hdrop]
    simp only [if_true, eq_self_iff_true]
    simp only [htb, List.drop_length]
    rw [if_neg (by simp [hbne])]

theorem parseParts_digits {a : Toks} (ha : ∀ c ∈ a, isDig c = true)
    (hane : a ≠ []) :
    parseParts a = some ⟨false, natOfChars a, 0⟩ := by
  cases a with
  | nil => exact absurd rfl hane
  | cons c u =>
    have hc := isDig_ne_sign (ha c (List.mem_cons_self _ _))
    have htake : ((c :: u).takeWhile isDig) = c :: u := takeWhile_all ha
    unfold parseParts
    simp only [if_neg hc.1, if_neg hc.2]
    simp only [htake, List.drop_length]
    rw [if_neg (by simp)]
    simp

/-! ### `fmtPositional`: shape, characters, parse-back -/

theorem replicate_zero_digits (k : ℕ) :
    ∀ c ∈ List.replicate k '0', isDig c = true := by
  intro c hc
  rw [List.eq_of_mem_replicate hc]
  decide

theorem natOfChars_append_replicate (a : Toks) (k : ℕ) :
    natOfChars (a ++ List.replicate k '0') = natOfChars a * 10 ^ k := by
  rw [natOfChars_append, natOfChars_replicate_zero, List.length_replicate]
  omega

theorem natOfChars_replicate_append (k : ℕ) (a : Toks) :
    natOfChars (List.replicate k '0' ++ a) = natOfChars a := by
  rw [natOfChars_append, natOfChars_replicate_zero]
  omega

theorem fmtPositional_chars {n0 : ℕ} {sc : ℤ} :
    ∀ c ∈ fmtPositional n0 sc, isDig c = true ∨ c = '.' := by
  intro c hc
  unfold fmtPositional at hc
  by_cases h : 0 ≤ sc
  · rw [if_pos h] at hc
    simp only [List.append_assoc, List.mem_append, List.mem_cons] at hc
    rcases hc with hc | hc | hc
    · exact Or.inl (natToChars_digits n0 c hc)
    · exact Or.inl (replicate_zero_digits _ c hc)
    · simp at hc
      rcases hc with hc | hc
      · exact Or.inr hc
      · subst hc; exact Or.inl (by decide)
  · rw [if_neg h] at hc
    by_cases hk : 0 < (natToChars n0).length + sc
    · rw [if_pos hk] at hc
      simp only [List.mem_append, List.mem_cons] at hc
      rcases hc with hc | hc | hc
      · exact Or.inl (natToChars_digits n0 c (List.mem_of_mem_take hc))
      · exact Or.inr hc
      · exact Or.inl (natToChars_digits n0 c (List.mem_of_mem_drop hc))
    · rw [if_neg hk] at hc
      simp only [List.mem_cons, List.mem_append] at hc
      rcases hc with hc | hc | hc | hc
      · subst hc; exact Or.inl (by decide)
      · exact Or.inr hc
      · exact Or.inl (replicate_zero_digits _ c hc)
      · exact Or.inl (natToChars_digits n0 c hc)

theorem fmtPositional_has_dot (n0 : ℕ) (sc : ℤ) : '.' ∈ fmtPositional n0 sc := by
  unfold fmtPositional
  by_cases h : 0 ≤ sc
  · rw [if_pos h]; simp
  · rw [if_neg h]
    by_cases hk : 0 < (natToChars n0).length + sc
    · rw [if_pos hk]; simp
    · rw [if_neg hk]; simp

theorem natToChars_ne_nil {n0 : ℕ} (hlt : n0 < 10 ^ 4000) (h0 : n0 ≠ 0) :
    natToChars n0 ≠ [] := by
  intro hz
  have hv := natToChars_val hlt
  rw [hz] at hv
  exact h0 (by simpa [natOfChars] using hv.symm)

theorem parse_fmtPositional {n0 : ℕ} (h0 : n0 ≠ 0) (hlt : n0 < 10 ^ 4000) (sc : ℤ) :
    parseParts (fmtPositional n0 sc) =
      some (if 0 ≤ sc then ⟨false, n0 * 10 ^ (sc.toNat + 1), -1⟩
            else ⟨false, n0, sc⟩) := by
  have hds := natToChars_digits n0
  have hval : natOfChars (natToChars n0) = n0 := natToChars_val hlt
  unfold fmtPositional
  by_cases h : 0 ≤ sc
  · rw [if_pos h, if_pos h]
    have hsh : natToChars n0 ++ List.replicate sc.toNat '0' ++ ['.', '0'] =
        (natToChars n0 ++ List.replicate sc.toNat '0') ++ '.' :: ['0'] := by
      simp [List.append_assoc]
    rw [hsh, parseParts_digits_dot
      (by
        intro c hc
        rcases List.mem_append.mp hc with hc | hc
        · exact hds c hc
        · exact replicate_zero_digits _ c hc)
      (by intro c hc; simp at hc; subst hc; decide)
      (by simp)]
    congr 1
    have hrepl : List.replicate sc.toNat '0' ++ ['0'] =
        List.replicate (sc.toNat + 1) '0' := (List.replicate_succ' sc.toNat '0').symm
    have h2 : natOfChars (natToChars n0 ++ (List.replicate sc.toNat '0' ++ ['0'])) =
        n0 * 10 ^ (sc.toNat + 1) := by
      rw [hrepl, natOfChars_append_replicate, hval]
    simp [h2]
  · rw [if_neg h, if_neg h]
    by_cases hk : 0 < (natToChars n0).length + sc
    · rw [if_pos hk]
      have hkb : ((natToChars n0).length + sc).toNat < (natToChars n0).length := by
        omega
      have hdrops : (natToChars n0).drop ((natToChars n0).length + sc).toNat ≠ [] := by
        intro hz
        have := List.drop_eq_nil_iff_le.mp hz
        omega
      rw [parseParts_digits_dot
        (fun c hc => hds c (List.mem_of_mem_take hc))
        (fun c hc => hds c (List.mem_of_mem_drop hc)) hdrops]
      rw [List.take_append_drop, hval]
      congr 2
      rw [List.length_drop]
      omega
    · rw [if_neg hk]
      have hsh : '0' :: '.' :: (List.replicate (-((natToChars n0).length + sc)).toNat '0' ++ natToChars n0) =
          ['0'] ++ '.' :: (List.replicate (-((natToChars n0).length + sc)).toNat '0' ++ natToChars n0) := rfl
      rw [hsh, parseParts_digits_dot
        (by intro c hc; simp at hc; subst hc; decide)
        (by
          intro c hc
          rcases List.mem_append.mp hc with hc | hc
          · exact replicate_zero_digits _ c hc
          · exact hds c hc)
        (by
          intro hz
          rcases List.append_eq_nil.mp hz with ⟨h1, h2⟩
          exact natToChars_ne_nil hlt h0 h2)]
      rw [show (['0'] ++ (List.replicate (-((natToChars n0).length + sc)).toNat '0' ++ natToChars n0)) =
          ('0' :: List.replicate (-((natToChars n0).length + sc)).toNat '0') ++ natToChars n0 by simp]
      rw [show ('0' :: List.replicate (-((natToChars n0).length + sc)).toNat '0') =
          List.replicate ((-((natToChars n0).length + sc)).toNat + 1) '0' by
        rw [List.replicate_succ]]
      rw [natOfChars_replicate_append, hval]
      congr 2
      rw [List.length_append, List.length_replicate]
      omega

/-! ### Fast-path packaging -/

theorem pTry_ok {α : Type} (a : α) (h : Unit → PRes α) : pTry (.ok a) h = .ok a := rfl

theorem pMap_ok {α β : Type} (g : α → β) (a : α) : pMap g (.ok a : PRes α) = .ok (g a) := rfl

theorem fmtParts_fast {N : ℕ} {s : ℤ} (h0 : N ≠ 0)
    (hc : digitCount10 (N / 10 ^ tenVal N) ≤ 15)
    (hd1 : -4 ≤ ((digitCount10 (N / 10 ^ tenVal N) : ℤ) - 1) + (s + tenVal N))
    (hd2 : ((digitCount10 (N / 10 ^ tenVal N) : ℤ) - 1) + (s + tenVal N) ≤ 15) :
    fmtParts ⟨false, N, s⟩ = fmtPositional (N / 10 ^ tenVal N) (s + tenVal N) := by
  unfold fmtParts
  simp only [if_neg h0, Bool.false_eq_true, if_false]
  rw [if_pos ⟨hc, hd1, hd2⟩]

theorem fast_cond {N f : ℕ} (h0 : N ≠ 0) (hN : N < 10 ^ 15) (hf : f ≤ 2) :
    digitCount10 (N / 10 ^ tenVal N) ≤ 15 ∧
      -4 ≤ ((digitCount10 (N / 10 ^ tenVal N) : ℤ) - 1) + (-(f : ℤ) + tenVal N) ∧
      ((digitCount10 (N / 10 ^ tenVal N) : ℤ) - 1) + (-(f : ℤ) + tenVal N) ≤ 15 := by
  have hN4 : N < 10 ^ 4000 :=
    lt_of_lt_of_le hN (Nat.pow_le_pow_right (by norm_num) (by norm_num))
  obtain ⟨hdec, hnd⟩ := tenVal_spec h0 hN4
  have hn00 : N / 10 ^ tenVal N ≠ 0 := by
    intro hz
    rw [hz] at hdec
    simp at hdec
    exact h0 hdec
  have hn0lt : N / 10 ^ tenVal N < 10 ^ 15 :=
    lt_of_le_of_lt (Nat.div_le_self _ _) hN
  have hcnt : digitCount10 (N / 10 ^ tenVal N) ≤ 15 :=
    digitCount10_le hn0lt (by norm_num)
  have hge : 10 ^ (digitCount10 (N / 10 ^ tenVal N) - 1) ≤ N / 10 ^ tenVal N :=
    digitCount10_ge hn00
  have hbound : 10 ^ (digitCount10 (N / 10 ^ tenVal N) - 1 + tenVal N) ≤ N := by
    calc 10 ^ (digitCount10 (N / 10 ^ tenVal N) - 1 + tenVal N)
        = 10 ^ (digitCount10 (N / 10 ^ tenVal N) - 1) * 10 ^ tenVal N := pow_add 10 _ _
      _ ≤ N / 10 ^ tenVal N * 10 ^ tenVal N := Nat.mul_le_mul_right _ hge
      _ = N := hdec.symm
  have hlt15 : digitCount10 (N / 10 ^ tenVal N) - 1 + tenVal N < 15 := by
    by_contra hcon
    push_neg at hcon
    have := Nat.pow_le_pow_right (show 1 ≤ 10 by norm_num) hcon
    omega
  have hpos : 1 ≤ digitCount10 (N / 10 ^ tenVal N) := digitCount10_pos hn00
  refine ⟨hcnt, ?_, ?_⟩ <;> omega

theorem fmtParts_eq_canon {N f : ℕ} (hN : N < 10 ^ 15) (hf : f ≤ 2) :
    fmtParts ⟨false, N, -(f : ℤ)⟩ = pyCanonPair N f := by
  by_cases h0 : N = 0
  · subst h0; rfl
  · obtain ⟨hc, h1, h2⟩ := fast_cond h0 hN hf
    rw [fmtParts_fast h0 hc h1 h2]
    unfold pyCanonPair
    rw [if_neg h0]
    congr 1
    omega

/-! ### `tailDecMatch` decomposition -/

theorem tailDecMatch_decomp {q base frac : Toks}
    (h : tailDecMatch q = some (base, frac)) :
    (∃ s, isSepPC s = true ∧ q = base ++ s :: frac) ∧
      (∀ c ∈ frac, isDig c = true) ∧ 1 ≤ frac.length ∧ frac.length ≤ 2 := by
  unfold tailDecMatch at h
  rcases hrev : q.reverse with _ | ⟨a, _ | ⟨b, _ | ⟨c, rest⟩⟩⟩ <;> rw [hrev] at h
  · simp at h
  · simp at h
  · -- q.reverse = [a, b]
    simp only at h
    split_ifs at h with h1
    · obtain ⟨rfl, rfl⟩ : base = [] ∧ frac = [a] := by
        constructor <;> · injection h with h2; injection h2 with h3 h4; simp_all
      refine ⟨⟨b, ?_, ?_⟩, ?_, by simp, by simp⟩
      · exact h1.2
      · have : q = (q.reverse).reverse := (List.reverse_reverse q).symm
        rw [this, hrev]; rfl
      · intro x hx
        simp at hx
        subst hx
        exact h1.1
  · -- q.reverse = a :: b :: c :: rest
    simp only at h
    split_ifs at h with h1 h2
    · obtain ⟨rfl, rfl⟩ : base = rest.reverse ∧ frac = [b, a] := by
        constructor <;> · injection h with h3; injection h3 with h4 h5; simp_all
      refine ⟨⟨c, ?_, ?_⟩, ?_, by simp, by simp⟩
      · exact h1.2.2
      · have hqq : q = (q.reverse).reverse := (List.reverse_reverse q).symm
        rw [hqq, hrev]
        simp
      · intro x hx
        simp at hx
        rcases hx with rfl | rfl
        · exact h1.2.1
        · exact h1.1
    · obtain ⟨rfl, rfl⟩ : base = (c :: rest).reverse ∧ frac = [a] := by
        constructor <;> · injection h with h3; injection h3 with h4 h5; simp_all
      refine ⟨⟨b, ?_, ?_⟩, ?_, by simp, by simp⟩
      · exact h2.2
      · have hqq : q = (q.reverse).reverse := (List.reverse_reverse q).symm
        rw [hqq, hrev]
        simp
      · intro x hx
        simp at hx
        subst hx
        exact h2.1

theorem filter_isDig_through_space {l : Toks} :
    (l.filter (· ≠ ' ')).filter isDig = l.filter isDig := by
  induction l with
  | nil => rfl
  | cons c t ih =>
    by_cases hsp : c = ' '
    · subst hsp
      have hd : isDig ' ' = false := by decide
      simp only [List.filter_cons, hd]
      rw [if_neg (by simp)]
      exact ih
    · simp only [List.filter_cons]
      rw [if_pos (by simp [hsp])]
      rw [List.filter_cons]
      cases hd : isDig c
      · simpa [hd] using ih
      · simpa [hd] using ih

theorem pMap_err {α β : Type} (g : α → β) (e : Unit) :
    pMap g (.error e : PRes α) = .error e := rfl

theorem pTry_err {α : Type} (e : Unit) (h : Unit → PRes α) :
    pTry (.error e) h = h e := rfl

/-- On tokens of digits, separators and spaces with at most 15 digits,
`_normalize_number` succeeds and returns the canonical rendering of the
decimal value read off by the spec's parsing rule. -/
theorem normNumT_char {p : Toks} (hok : ∀ c ∈ p, okNumChar c = true)
    (hcnt : (p.filter isDig).length ≤ 15) :
    normNumT p =
      .ok (match specNormParts p with
           | none => []
           | some nf => pyCanonPair nf.1 nf.2) := by
  have hqchars : ∀ c ∈ p.filter (· ≠ ' '), isDig c = true ∨ isSepPC c = true := by
    intro c hc
    have hcp : c ∈ p := List.mem_of_mem_filter hc
    have hcs : c ≠ ' ' := by
      have := List.of_mem_filter hc
      simpa using this
    have hko := hok c hcp
    simp only [okNumChar, Bool.or_eq_true, decide_eq_true_eq] at hko
    rcases hko with h | h | h | h
    · exact Or.inl h
    · exact Or.inr (by simp [isSepPC, h])
    · exact Or.inr (by simp [isSepPC, h])
    · exact absurd h hcs
  have hqd : (p.filter (· ≠ ' ')).filter isDig = p.filter isDig :=
    filter_isDig_through_space
  simp only [normNumT, specNormParts]
  cases ht : tailDecMatch (p.filter (· ≠ ' ')) with
  | none =>
    simp only
    by_cases hz : (p.filter (· ≠ ' ')).filter notSepPC = []
    · rw [hz]
      rw [if_pos rfl]
      have hpf : pyFloat [] = .error () := rfl
      rw [hpf, pMap_err, pTry_err]
    · rw [if_neg hz]
      have hd := filter_notSep_eq_filter_isDig hqchars
      have hdigs : ∀ c ∈ (p.filter (· ≠ ' ')).filter notSepPC, isDig c = true := by
        rw [hd]
        intro c hc
        exact List.of_mem_filter hc
      have hlen : ((p.filter (· ≠ ' ')).filter notSepPC).length ≤ 15 := by
        rw [hd, hqd]; exact hcnt
      have hN : natOfChars ((p.filter (· ≠ ' ')).filter notSepPC) < 10 ^ 15 :=
        lt_of_lt_of_le (natOfChars_lt hdigs)
          (Nat.pow_le_pow_right (by norm_num) hlen)
      have hws : ∀ c ∈ (p.filter (· ≠ ' ')).filter notSepPC, isWs c = false :=
        fun c hc => (isDig_not_special (hdigs c hc)).2.2.2.1
      have hpf : pyFloat ((p.filter (· ≠ ' ')).filter notSepPC) =
          .ok ⟨false, natOfChars ((p.filter (· ≠ ' ')).filter notSepPC), 0⟩ := by
        unfold pyFloat
        rw [show ((((p.filter (· ≠ ' ')).filter notSepPC).dropWhile isWs).reverse.dropWhile
            isWs).reverse = (p.filter (· ≠ ' ')).filter notSepPC from stripWsEnds_noWs hws]
        rw [parseParts_digits hdigs hz]
      rw [hpf, pMap_ok, pTry_ok]
      have hc0 := fmtParts_eq_canon
        (N := natOfChars ((p.filter (· ≠ ' ')).filter notSepPC)) (f := 0) hN (by norm_num)
      simp only [Nat.cast_zero, neg_zero] at hc0
      rw [hc0]
  | some bf =>
    obtain ⟨base, frac⟩ := bf
    obtain ⟨⟨s, hsep, hdecomp⟩, hfr, hf1, hf2⟩ := tailDecMatch_decomp ht
    simp only
    have hbch : ∀ c ∈ base, isDig c = true ∨ isSepPC c = true := by
      intro c hc
      exact hqchars c (hdecomp ▸ List.mem_append_left _ hc)
    have hbd := filter_notSep_eq_filter_isDig hbch
    have hbdigs : ∀ c ∈ base.filter notSepPC, isDig c = true := by
      rw [hbd]
      intro c hc
      exact List.of_mem_filter hc
    have hdigs : ∀ c ∈ base.filter notSepPC ++ frac, isDig c = true := by
      intro c hc
      rcases List.mem_append.mp hc with h | h
      · exact hbdigs c h
      · exact hfr c h
    have hsd : isDig s = false := by
      rcases isSepPC_cases hsep with rfl | rfl <;> decide
    have hqf : (p.filter (· ≠ ' ')).filter isDig = base.filter isDig ++ frac := by
      rw [hdecomp, List.filter_append, List.filter_cons]
      rw [if_neg (by simp [hsd])]
      rw [filter_all_true hfr]
    have hlen : (base.filter notSepPC ++ frac).length ≤ 15 := by
      rw [hbd, ← hqf, hqd]; exact hcnt
    have hN : natOfChars (base.filter notSepPC ++ frac) < 10 ^ 15 :=
      lt_of_lt_of_le (natOfChars_lt hdigs)
        (Nat.pow_le_pow_right (by norm_num) hlen)
    have hne : frac ≠ [] := by
      intro hz; rw [hz] at hf1; simp at hf1
    have hws : ∀ c ∈ base.filter notSepPC ++ '.' :: frac, isWs c = false := by
      intro c hc
      rcases List.mem_append.mp hc with h | h
      · exact (isDig_not_special (hbdigs c h)).2.2.2.1
      · rcases List.mem_cons.mp h with rfl | h
        · decide
        · exact (isDig_not_special (hfr c h)).2.2.2.1
    have hpf : pyFloat (base.filter notSepPC ++ '.' :: frac) =
        .ok ⟨false, natOfChars (base.filter notSepPC ++ frac), -(frac.length : ℤ)⟩ := by
      unfold pyFloat
      rw [show (((base.filter notSepPC ++ '.' :: frac).dropWhile isWs).reverse.dropWhile
          isWs).reverse = base.filter notSepPC ++ '.' :: frac from stripWsEnds_noWs hws]
      rw [parseParts_digits_dot hbdigs hfr hne]
    rw [hpf, pMap_ok, pTry_ok]
    rw [fmtParts_eq_canon hN hf2]

/-! ### `tailDecMatch` on canonical shapes -/

theorem tailDecMatch_dot1 (A : Toks) {d : Char} (hd : isDig d = true) :
    tailDecMatch (A ++ '.' :: [d]) = some (A, [d]) := by
  unfold tailDecMatch
  have hrev : (A ++ '.' :: [d]).reverse = d :: '.' :: A.reverse := by simp
  rw [hrev]
  cases hA : A.reverse with
  | nil =>
    have : A = [] := by simpa using congrArg List.reverse hA
    subst this
    simp only
    rw [if_pos ⟨hd, by decide⟩]
  | cons c rest =>
    simp only
    rw [if_neg (fun hco => absurd hco.2.1 (by decide)), if_pos ⟨hd, by decide⟩]
    have : (c :: rest).reverse = A := by
      rw [← hA, List.reverse_reverse]
    rw [this]

theorem tailDecMatch_dot2 (A : Toks) {d1 d2 : Char} (h1 : isDig d1 = true)
    (h2 : isDig d2 = true) :
    tailDecMatch (A ++ '.' :: [d1, d2]) = some (A, [d1, d2]) := by
  unfold tailDecMatch
  have hrev : (A ++ '.' :: [d1, d2]).reverse = d2 :: d1 :: '.' :: A.reverse := by
    simp
  rw [hrev]
  simp only
  rw [if_pos ⟨h2, h1, by decide⟩]
  rw [List.reverse_reverse]

theorem fmtPositional_decomp {n0 : ℕ} {sc : ℤ} (hsc : -2 ≤ sc) :
    ∃ A B, fmtPositional n0 sc = A ++ '.' :: B ∧
      (∀ c ∈ A, isDig c = true) ∧ (B.length = 1 ∨ B.length = 2) ∧
      (∀ c ∈ B, isDig c = true) := by
  unfold fmtPositional
  by_cases hs : 0 ≤ sc
  · rw [if_pos hs]
    refine ⟨natToChars n0 ++ List.replicate sc.toNat '0', ['0'],
      by rw [List.append_assoc], ?_, Or.inl rfl, ?_⟩
    · intro c hc
      rcases List.mem_append.mp hc with h | h
      · exact natToChars_digits n0 c h
      · exact replicate_zero_digits _ c h
    · intro c hc
      simp at hc
      subst hc
      decide
  · rw [if_neg hs]
    by_cases hk : (0 : ℤ) < (natToChars n0).length + sc
    · rw [if_pos hk]
      refine ⟨(natToChars n0).take ((natToChars n0).length + sc).toNat,
        (natToChars n0).drop ((natToChars n0).length + sc).toNat, rfl, ?_, ?_, ?_⟩
      · intro c hc
        exact natToChars_digits n0 c (List.mem_of_mem_take hc)
      · rw [List.length_drop]
        have hkk : (((natToChars n0).length + sc).toNat : ℤ)
            = (natToChars n0).length + sc := Int.toNat_of_nonneg (le_of_lt hk)
        omega
      · intro c hc
        exact natToChars_digits n0 c (List.mem_of_mem_drop hc)
    · rw [if_neg hk]
      refine ⟨['0'],
        List.replicate (-((natToChars n0).length + sc)).toNat '0' ++ natToChars n0,
        rfl, ?_, ?_, ?_⟩
      · intro c hc
        simp at hc
        subst hc
        decide
      · rw [List.length_append, List.length_replicate]
        have hkk : ((-((natToChars n0).length + sc)).toNat : ℤ)
            = -((natToChars n0).length + sc) := Int.toNat_of_nonneg (by omega)
        omega
      · intro c hc
        rcases List.mem_append.mp hc with h | h
        · exact replicate_zero_digits _ c h
        · exact natToChars_digits n0 c h

theorem fmtParts_roundtrip {n0 : ℕ} (hnd : ¬ 10 ∣ n0) (hn0 : n0 < 10 ^ 15)
    (hcnt : digitCount10 n0 ≤ 15) {sc : ℤ}
    (hd1 : -4 ≤ (digitCount10 n0 : ℤ) - 1 + sc)
    (hd2 : (digitCount10 n0 : ℤ) - 1 + sc ≤ 15) :
    fmtParts
        (if 0 ≤ sc then (⟨false, n0 * 10 ^ (sc.toNat + 1), -1⟩ : FParts)
         else ⟨false, n0, sc⟩) =
      fmtPositional n0 sc := by
  have hn00 : n0 ≠ 0 := fun hz => hnd (hz ▸ dvd_zero 10)
  have hn04 : n0 < 10 ^ 4000 :=
    lt_of_lt_of_le hn0 (Nat.pow_le_pow_right (by norm_num) (by norm_num))
  have hdpos : 1 ≤ digitCount10 n0 := digitCount10_pos hn00
  by_cases hs : 0 ≤ sc
  · rw [if_pos hs]
    have hscnat : (sc.toNat : ℤ) = sc := Int.toNat_of_nonneg hs
    have hsc15 : sc.toNat + 1 ≤ 16 := by omega
    have hM4 : n0 * 10 ^ (sc.toNat + 1) < 10 ^ 4000 := by
      calc n0 * 10 ^ (sc.toNat + 1)
          < 10 ^ 15 * 10 ^ (sc.toNat + 1) :=
            Nat.mul_lt_mul_of_lt_of_le hn0 (le_refl _) (pow_pos (by norm_num) _)
        _ ≤ 10 ^ 15 * 10 ^ 16 :=
            Nat.mul_le_mul_left _ (Nat.pow_le_pow_right (by norm_num) hsc15)
        _ = 10 ^ 31 := by norm_num
        _ < 10 ^ 4000 := Nat.pow_lt_pow_right (by norm_num) (by norm_num)
    obtain ⟨ht, hq⟩ := tenVal_of_decomp hnd hM4
    have hM0 : n0 * 10 ^ (sc.toNat + 1) ≠ 0 :=
      Nat.mul_ne_zero hn00 (pow_pos (by norm_num : (0:ℕ) < 10) _).ne'
    rw [fmtParts_fast hM0 (by rw [hq]; exact hcnt)
      (by rw [hq, ht]; push_cast; omega)
      (by rw [hq, ht]; push_cast; omega)]
    rw [hq, ht]
    congr 1
    push_cast
    omega
  · rw [if_neg hs]
    have h' := tenVal_of_decomp (m := n0) (k := 0) hnd (by simpa using hn04)
    rw [pow_zero, mul_one] at h'
    rw [fmtParts_fast hn00 (by rw [h'.2]; exact hcnt)
      (by rw [h'.2, h'.1]; push_cast; omega)
      (by rw [h'.2, h'.1]; push_cast; omega)]
    rw [h'.2, h'.1]
    congr 1
    push_cast
    omega

/-- `_normalize_number` is a fixpoint on its own canonical outputs in the
fast-path regime. -/
theorem normNumT_canon_fix {N f : ℕ} (hN : N < 10 ^ 15) (hf : f ≤ 2) :
    normNumT (pyCanonPair N f) = .ok (pyCanonPair N f) := by
  by_cases h0 : N = 0
  · subst h0
    rfl
  · have hN4 : N < 10 ^ 4000 :=
      lt_of_lt_of_le hN (Nat.pow_le_pow_right (by norm_num) (by norm_num))
    obtain ⟨hc, hd1, hd2⟩ := fast_cond h0 hN hf
    obtain ⟨hdec, hnd⟩ := tenVal_spec h0 hN4
    set t := tenVal N with htdef
    set n0 := N / 10 ^ t with hn0def
    have hn00 : n0 ≠ 0 := by
      intro hz
      rw [hz] at hdec
      simp at hdec
      exact h0 hdec
    have hn0lt : n0 < 10 ^ 15 := lt_of_le_of_lt (Nat.div_le_self _ _) hN
    have hn04 : n0 < 10 ^ 4000 :=
      lt_of_lt_of_le hn0lt (Nat.pow_le_pow_right (by norm_num) (by norm_num))
    have hcanon : pyCanonPair N f = fmtPositional n0 ((t : ℤ) - f) := by
      unfold pyCanonPair
      rw [if_neg h0]
    have hsc2 : -2 ≤ (t : ℤ) - f := by omega
    obtain ⟨A, B, hAB, hAd, hBlen, hBd⟩ := @fmtPositional_decomp n0 _ hsc2
    rw [hcanon, hAB]
    have hns : (A ++ '.' :: B).filter (· ≠ ' ') = A ++ '.' :: B := by
      apply filter_all_true
      intro c hc
      rcases List.mem_append.mp hc with h | h
      · exact decide_eq_true (isDig_not_special (hAd c h)).2.2.1
      · rcases List.mem_cons.mp h with rfl | h
        · decide
        · exact decide_eq_true (isDig_not_special (hBd c h)).2.2.1
    simp only [normNumT]
    rw [hns]
    have htm : tailDecMatch (A ++ '.' :: B) = some (A, B) := by
      rcases hBlen with h1 | h2
      · obtain ⟨d, rfl⟩ := List.length_eq_one.mp h1
        exact tailDecMatch_dot1 A (hBd _ (by simp))
      · obtain ⟨d1, d2, rfl⟩ := List.length_eq_two.mp h2
        exact tailDecMatch_dot2 A (hBd _ (by simp)) (hBd _ (by simp))
    rw [htm]
    simp only
    rw [filter_all_true (fun c hc => (isDig_not_special (hAd c hc)).2.2.2.2.2)]
    have hws : ∀ c ∈ A ++ '.' :: B, isWs c = false := by
      intro c hc
      rcases List.mem_append.mp hc with h | h
      · exact (isDig_not_special (hAd c h)).2.2.2.1
      · rcases List.mem_cons.mp h with rfl | h
        · decide
        · exact (isDig_not_special (hBd c h)).2.2.2.1
    have hpf : pyFloat (A ++ '.' :: B) =
        .ok (if 0 ≤ (t : ℤ) - f
             then ⟨false, n0 * 10 ^ (((t : ℤ) - f).toNat + 1), -1⟩
             else ⟨false, n0, (t : ℤ) - f⟩) := by
      unfold pyFloat
      rw [show (((A ++ '.' :: B).dropWhile isWs).reverse.dropWhile isWs).reverse
          = A ++ '.' :: B from stripWsEnds_noWs hws]
      rw [← hAB, parse_fmtPositional hn00 hn04]
    rw [hpf, pMap_ok, pTry_ok, ← hAB]
    congr 1
    exact fmtParts_roundtrip hnd hn0lt hc (by omega) (by omega)

theorem okChars_space_filter {p : Toks} (hok : ∀ c ∈ p, okNumChar c = true) :
    ∀ c ∈ p.filter (· ≠ ' '), isDig c = true ∨ isSepPC c = true := by
  intro c hc
  have hcp : c ∈ p := List.mem_of_mem_filter hc
  have hcs : c ≠ ' ' := by
    have := List.of_mem_filter hc
    simpa using this
  have hko := hok c hcp
  simp only [okNumChar, Bool.or_eq_true, decide_eq_true_eq] at hko
  rcases hko with h | h | h | h
  · exact Or.inl h
  · exact Or.inr (by simp [isSepPC, h])
  · exact Or.inr (by simp [isSepPC, h])
  · exact absurd h hcs

/-- The spec-side parse respects the 15-digit domain bound. -/
theorem specNormParts_bounds {p : Toks} (hok : ∀ c ∈ p, okNumChar c = true)
    (hcnt : (p.filter isDig).length ≤ 15) :
    ∀ N f, specNormParts p = some (N, f) → N < 10 ^ 15 ∧ f ≤ 2 := by
  intro N f hNf
  have hqchars := okChars_space_filter hok
  have hqd : (p.filter (· ≠ ' ')).filter isDig = p.filter isDig :=
    filter_isDig_through_space
  simp only [specNormParts] at hNf
  cases ht : tailDecMatch (p.filter (· ≠ ' ')) with
  | none =>
    rw [ht] at hNf
    simp only at hNf
    split_ifs at hNf with hz
    have hd := filter_notSep_eq_filter_isDig hqchars
    have hdigs : ∀ c ∈ (p.filter (· ≠ ' ')).filter notSepPC, isDig c = true := by
      rw [hd]
      intro c hc
      exact List.of_mem_filter hc
    have hlen : ((p.filter (· ≠ ' ')).filter notSepPC).length ≤ 15 := by
      rw [hd, hqd]; exact hcnt
    have hNlt : natOfChars ((p.filter (· ≠ ' ')).filter notSepPC) < 10 ^ 15 :=
      lt_of_lt_of_le (natOfChars_lt hdigs)
        (Nat.pow_le_pow_right (by norm_num) hlen)
    injection hNf with hNf
    injection hNf with h1 h2
    omega
  | some bf =>
    obtain ⟨base, frac⟩ := bf
    rw [ht] at hNf
    simp only at hNf
    obtain ⟨⟨s, hsep, hdecomp⟩, hfr, hf1, hf2⟩ := tailDecMatch_decomp ht
    have hbch : ∀ c ∈ base, isDig c = true ∨ isSepPC c = true := by
      intro c hc
      exact hqchars c (hdecomp ▸ List.mem_append_left _ hc)
    have hbd := filter_notSep_eq_filter_isDig hbch
    have hbdigs : ∀ c ∈ base.filter notSepPC, isDig c = true := by
      rw [hbd]
      intro c hc
      exact List.of_mem_filter hc
    have hdigs : ∀ c ∈ base.filter notSepPC ++ frac, isDig c = true := by
      intro c hc
      rcases List.mem_append.mp hc with h | h
      · exact hbdigs c h
      · exact hfr c h
    have hsd : isDig s = false := by
      rcases isSepPC_cases hsep with rfl | rfl <;> decide
    have hqf : (p.filter (· ≠ ' ')).filter isDig = base.filter isDig ++ frac := by
      rw [hdecomp, List.filter_append, List.filter_cons]
      rw [if_neg (by simp [hsd])]
      rw [filter_all_true hfr]
    have hlen : (base.filter notSepPC ++ frac).length ≤ 15 := by
      rw [hbd, ← hqf, hqd]; exact hcnt
    have hNlt : natOfChars (base.filter notSepPC ++ frac) < 10 ^ 15 :=
      lt_of_lt_of_le (natOfChars_lt hdigs)
        (Nat.pow_le_pow_right (by norm_num) hlen)
    injection hNf with hNf
    injection hNf with h1 h2
    omega

theorem canon_value_core {n0 t f : ℕ} (hnd : ¬ 10 ∣ n0) (hn04 : n0 < 10 ^ 4000) :
    ∃ P, parseParts (fmtPositional n0 ((t : ℤ) - f)) = some P ∧ P.neg = false ∧
      fpToQ P = ((n0 * 10 ^ t : ℕ) : ℚ) / 10 ^ f := by
  have hn00 : n0 ≠ 0 := fun hz => hnd (hz ▸ dvd_zero 10)
  rw [parse_fmtPositional hn00 hn04]
  by_cases hs : 0 ≤ (t : ℤ) - f
  · rw [if_pos hs]
    obtain ⟨k, rfl⟩ : ∃ k, t = f + k := ⟨t - f, by omega⟩
    have hk : (((f + k : ℕ) : ℤ) - (f : ℤ)).toNat = k := by push_cast; omega
    refine ⟨_, rfl, rfl, ?_⟩
    simp only [fpToQ, hk, Bool.false_eq_true, if_false]
    push_cast
    rw [zpow_neg, zpow_one]
    field_simp
    ring
  · rw [if_neg hs]
    refine ⟨_, rfl, rfl, ?_⟩
    simp only [fpToQ, Bool.false_eq_true, if_false]
    push_cast
    rw [zpow_sub₀ (by norm_num : (10 : ℚ) ≠ 0)]
    rw [zpow_natCast, zpow_natCast]
    field_simp

/-- The canonical rendering parses back to the exact decimal `N / 10^f`. -/
theorem canon_value {N f : ℕ} (hN : N < 10 ^ 15) :
    ∃ P, parseParts (pyCanonPair N f) = some P ∧ P.neg = false ∧
      fpToQ P = (N : ℚ) / 10 ^ f := by
  by_cases h0 : N = 0
  · subst h0
    refine ⟨⟨false, 0, -1⟩, rfl, rfl, ?_⟩
    simp [fpToQ]
  · have hN4 : N < 10 ^ 4000 :=
      lt_of_lt_of_le hN (Nat.pow_le_pow_right (by norm_num) (by norm_num))
    obtain ⟨hdec, hnd⟩ := tenVal_spec h0 hN4
    have hn04 : N / 10 ^ tenVal N < 10 ^ 4000 :=
      lt_of_le_of_lt (Nat.div_le_self _ _) hN4
    have hcanon : pyCanonPair N f = fmtPositional (N / 10 ^ tenVal N)
        ((tenVal N : ℤ) - f) := by
      unfold pyCanonPair
      rw [if_neg h0]
    rw [hcanon]
    obtain ⟨P, hP, hPn, hPv⟩ := canon_value_core (t := tenVal N) (f := f) hnd hn04
    refine ⟨P, hP, hPn, ?_⟩
    rw [hPv, ← hdec]

/-! ### Totality: the pipeline never propagates an exception -/

theorem pOk_eq_ok {α : Type} {x : PRes α} (h : pOk x = true) : ∃ a, x = .ok a := by
  cases x with
  | ok a => exact ⟨a, rfl⟩
  | error e => simp [pOk] at h

theorem pbind_ok {α β : Type} (a : α) (k : α → PRes β) :
    ((.ok a : PRes α) >>= k) = k a := rfl

theorem pOk_pMap {α β : Type} (g : α → β) (x : PRes α) :
    pOk (pMap g x) = pOk x := by
  cases x <;> rfl

theorem pOk_pTry {α : Type} (x : PRes α) (h : Unit → PRes α)
    (hh : ∀ u, pOk (h u) = true) : pOk (pTry x h) = true := by
  cases x with
  | ok a => rfl
  | error e => exact hh e

theorem normNumT_ok (p : Toks) : pOk (normNumT p) = true := by
  unfold normNumT
  dsimp only
  split <;> exact pOk_pTry _ _ (fun u => rfl)

theorem extract_ok (t : Toks) : pOk (extract_amount_numberT t) = true := by
  unfold extract_amount_numberT
  dsimp only
  split
  · rfl
  · split
    · exact normNumT_ok _
    · split
      · exact normNumT_ok _
      · split
        · exact normNumT_ok _
        · split
          · split
            · exact normNumT_ok _
            · rfl
          · split
            · exact normNumT_ok _
            · rfl

theorem pickStep_ok (s : Toks) (acc : List Cand) (ab : ℕ × ℕ) :
    pOk (pickStep s acc ab) = true := by
  unfold pickStep
  dsimp only
  obtain ⟨v, hv⟩ := pOk_eq_ok (extract_ok (slice s ab.1 ab.2))
  rw [hv, pbind_ok]
  split
  · rfl
  · exact pOk_pTry _ _ (fun u => rfl)

theorem foldlM_ok {α β : Type} (step : α → β → PRes α)
    (hstep : ∀ a b, pOk (step a b) = true) :
    ∀ (l : List β) (a : α), pOk (l.foldlM step a) = true := by
  intro l
  induction l with
  | nil => intro a; rfl
  | cons x xs ih =>
    intro a
    rw [List.foldlM_cons]
    obtain ⟨v, hv⟩ := pOk_eq_ok (hstep a x)
    rw [hv, pbind_ok]
    exact ih v

theorem pyMaxBy_ok_ne {key : Cand → ℤ × FParts} {l : List Cand} (h : l ≠ []) :
    pOk (pyMaxBy key l) = true := by
  cases l with
  | nil => exact absurd rfl h
  | cons c cs => rfl

theorem pickTail_ok {cands : List Cand} (h : cands ≠ []) :
    pOk (pickTail cands) = true := by
  unfold pickTail
  split
  · rfl
  · rw [pOk_pMap]
    exact pyMaxBy_ok_ne h

theorem pick_ok (text : Toks) : pOk (pick_best_price_tokenT text) = true := by
  unfold pick_best_price_tokenT
  dsimp only
  split
  · rfl
  · split
    · rfl
    · obtain ⟨cands, hc⟩ := pOk_eq_ok
        (foldlM_ok _ (pickStep_ok (normalize_for_price_extractionT text)) _ [])
      rw [hc, pbind_ok]
      split
      · rfl
      · next hne =>
        split
        · next hm =>
          obtain ⟨b, hb⟩ := pOk_eq_ok (@pyMaxBy_ok_ne (fun c => (scoreInt c, c.num)) _ hm)
          rw [hb, pbind_ok]
          rfl
        · split
          · split
            · next ha =>
              obtain ⟨b, hb⟩ := pOk_eq_ok (pyMaxBy_ok_ne ha)
              rw [hb, pbind_ok]
              rfl
            · exact pickTail_ok hne
          · exact pickTail_ok hne

theorem default_ok (babel : Babel) (a2 : String) :
    pOk (default_currency_for_alpha2 babel a2) = true := by
  unfold default_currency_for_alpha2
  dsimp only
  split
  · rfl
  · exact pOk_pTry _ _ (fun u => rfl)

theorem yen_ok (babel : Babel) (a2 : String) :
    pOk (yenCurrency babel a2) = true := by
  unfold yenCurrency
  dsimp only
  split_ifs <;> first | rfl | exact default_ok _ _

theorem detect_ok (babel : Babel) (text : Toks) (a2 : String) :
    pOk (detect_currency_in_textT babel text a2) = true := by
  unfold detect_currency_in_textT
  dsimp only
  split
  · rfl
  · split
    · rfl
    · split
      · rw [pOk_pMap]; exact yen_ok _ _
      · split
        · split
          · rw [pOk_pMap]; exact yen_ok _ _
          · rfl
        · split
          · rfl
          · split
            · rw [pOk_pMap]; exact default_ok _ _
            · rw [pOk_pMap]; exact default_ok _ _

theorem upperA_idem (c : Char) : upperA (upperA c) = upperA c := by
  by_cases h1 : c = 'a'
  · subst h1; rfl
  by_cases h2 : c = 'b'
  · subst h2; rfl
  by_cases h3 : c = 'c'
  · subst h3; rfl
  by_cases h4 : c = 'd'
  · subst h4; rfl
  by_cases h5 : c = 'e'
  · subst h5; rfl
  by_cases h6 : c = 'f'
  · subst h6; rfl
  by_cases h7 : c = 'g'
  · subst h7; rfl
  by_cases h8 : c = 'h'
  · subst h8; rfl
  by_cases h9 : c = 'i'
  · subst h9; rfl
  by_cases h10 : c = 'j'
  · subst h10; rfl
  by_cases h11 : c = 'k'
  · subst h11; rfl
  by_cases h12 : c = 'l'
  · subst h12; rfl
  by_cases h13 : c = 'm'
  · subst h13; rfl
  by_cases h14 : c = 'n'
  · subst h14; rfl
  by_cases h15 : c = 'o'
  · subst h15; rfl
  by_cases h16 : c = 'p'
  · subst h16; rfl
  by_cases h17 : c = 'q'
  · subst h17; rfl
  by_cases h18 : c = 'r'
  · subst h18; rfl
  by_cases h19 : c = 's'
  · subst h19; rfl
  by_cases h20 : c = 't'
  · subst h20; rfl
  by_cases h21 : c = 'u'
  · subst h21; rfl
  by_cases h22 : c = 'v'
  · subst h22; rfl
  by_cases h23 : c = 'w'
  · subst h23; rfl
  by_cases h24 : c = 'x'
  · subst h24; rfl
  by_cases h25 : c = 'y'
  · subst h25; rfl
  by_cases h26 : c = 'z'
  · subst h26; rfl
  have hc : upperA c = c := by
    unfold upperA
    rw [if_neg h1, if_neg h2, if_neg h3, if_neg h4, if_neg h5, if_neg h6, if_neg h7, if_neg h8, if_neg h9, if_neg h10, if_neg h11, if_neg h12, if_neg h13, if_neg h14, if_neg h15, if_neg h16, if_neg h17, if_neg h18, if_neg h19, if_neg h20, if_neg h21, if_neg h22, if_neg h23, if_neg h24, if_neg h25, if_neg h26]
  rw [hc, hc]

theorem upperS_idem (s : String) : upperS (upperS s) = upperS s := by
  unfold upperS
  congr 1
  rw [List.map_map]
  exact List.map_congr_left fun c _ => upperA_idem c

theorem default_upperS (babel : Babel) (a2 : String) :
    default_currency_for_alpha2 babel (upperS a2) =
      default_currency_for_alpha2 babel a2 := by
  unfold default_currency_for_alpha2
  rw [upperS_idem]

theorem pMap_eq_ok {α β : Type} {g : α → β} {x : PRes α} {b : β}
    (h : pMap g x = .ok b) : ∃ a, x = .ok a ∧ g a = b := by
  cases x with
  | ok a =>
    refine ⟨a, rfl, ?_⟩
    injection h
  | error e => exact absurd h (by simp [pMap])

theorem yen_nonempty (babel : Babel) (a2 : String)
    (hdef : ∀ r, default_currency_for_alpha2 babel a2 = .ok r → r ≠ "") :
    ∀ r, yenCurrency babel a2 = .ok r → r ≠ "" := by
  intro r h
  unfold yenCurrency at h
  dsimp only at h
  split_ifs at h
  · injection h with h; subst h; decide
  · injection h with h; subst h; decide
  · rw [default_upperS] at h
    exact hdef r h

theorem strongTokens_nonempty : ∀ x ∈ strongTokensM, x.2 ≠ "" := by decide

theorem singleSymbol_nonempty : ∀ x ∈ singleSymbolToIso, x.2 ≠ "" := by decide

theorem knownIso_nonempty : ∀ s ∈ KNOWN_ISO, s ≠ "" := by decide

/-- With nonempty cleaned text and a nonempty territory default, every
branch of the detector yields a nonempty currency. -/
theorem detect_nonempty (babel : Babel) (text : Toks) (a2 : String)
    (hne : cleanT text ≠ [])
    (hdef : ∀ r, default_currency_for_alpha2 babel a2 = .ok r → r ≠ "") :
    ∀ cur reason, detect_currency_in_textT babel text a2 = .ok (cur, reason) →
      cur ≠ "" := by
  intro cur reason h
  unfold detect_currency_in_textT at h
  dsimp only at h
  rw [if_neg hne] at h
  cases hss : strongScanIso (cleanT text) with
  | some iso =>
    rw [hss] at h
    dsimp only at h
    injection h with h
    injection h with h1 h2
    obtain ⟨mi, hfind, hmi⟩ := Option.map_eq_some'.mp hss
    have hmem := List.mem_of_find?_eq_some hfind
    rw [← h1, ← hmi]
    exact strongTokens_nonempty mi hmem
  | none =>
    rw [hss] at h
    dsimp only at h
    by_cases hy : ((cleanT text).contains '¥' = true ∨ (cleanT text).contains '￥' = true)
        ∧ ¬ reTest threeLettersM (cleanT text) = true
    · rw [if_pos hy] at h
      obtain ⟨a, ha, hga⟩ := pMap_eq_ok h
      injection hga with h1 h2
      rw [← h1]
      exact yen_nonempty babel a2 hdef a ha
    · rw [if_neg hy] at h
      cases hsy : singleSymScan (cleanT text) with
      | some si =>
        rw [hsy] at h
        dsimp only at h
        by_cases hy2 : si.1 = '¥' ∨ si.1 = '￥'
        · rw [if_pos hy2] at h
          obtain ⟨a, ha, hga⟩ := pMap_eq_ok h
          injection hga with h1 h2
          rw [← h1]
          exact yen_nonempty babel a2 hdef a ha
        · rw [if_neg hy2] at h
          injection h with h
          injection h with h1 h2
          obtain hmem := List.mem_of_find?_eq_some hsy
          rw [← h1]
          exact singleSymbol_nonempty si hmem
      | none =>
        rw [hsy] at h
        dsimp only at h
        cases hic : isoCodeScan ((cleanT text).map upperA) with
        | some code =>
          rw [hic] at h
          dsimp only at h
          injection h with h
          injection h with h1 h2
          obtain ⟨ab, hfind, hf⟩ := Option.map_eq_some'.mp hic
          have hpred := List.find?_some hfind
          have hconj := of_decide_eq_true hpred
          have hcontains := hconj.2.1
          have hmem : String.mk (slice ((cleanT text).map upperA) ab.1 ab.2)
              ∈ KNOWN_ISO := by
            simpa using hcontains
          rw [← h1, ← hf]
          exact knownIso_nonempty _ hmem
        | none =>
          rw [hic] at h
          dsimp only at h
          by_cases ha : ambigTest (cleanT text) = true
          · rw [if_pos ha] at h
            obtain ⟨a, hda, hga⟩ := pMap_eq_ok h
            injection hga with h1 h2
            rw [← h1]
            exact hdef a hda
          · rw [if_neg ha] at h
            obtain ⟨a, hda, hga⟩ := pMap_eq_ok h
            injection hga with h1 h2
            rw [← h1]
            exact hdef a hda

theorem pbind_err {α β : Type} (e : Unit) (k : α → PRes β) :
    ((.error e : PRes α) >>= k) = .error e := rfl

/-! ## The claims -/

set_option maxHeartbeats 64000000

/-- Claim C1: on the banner `"3 months for $0.99, then $10.99/month"` the
recurring-price selector returns the `$10.99` token, whose parsed value is
the rational `10.99` and not `0.99`. -/
theorem claim_C1 :
    pick_best_price_token bannerText =
      .ok (some ("$10.99", ⟨false, 1099, -2⟩)) ∧
    fpToQ ⟨false, 1099, -2⟩ = 10.99 ∧ (10.99 : ℚ) ≠ 0.99 := by
  refine ⟨by decide, ?_, by norm_num⟩
  simp only [fpToQ, Bool.false_eq_true, if_false]
  norm_num

/-- Claim C2 (actual behaviour, documenting the defect): on `failText` the
scan yields two candidates, the `$12.99` one carrying no intro flag, there is
no then-pivot and no monthly match, yet the selector returns `none` because
the code tests `any` intro flag where the comment (and the claim) say it
should return `none` only when every candidate is intro-flagged. -/
theorem claim_C2 :
    pick_best_price_token failText = .ok none ∧
    (reFindAll bannerM (normalize_for_price_extractionT failText.data)).foldlM
        (pickStep (normalize_for_price_extractionT failText.data)) [] =
      .ok [⟨"$0.99".data, ⟨false, 99, -2⟩, 31, false, true, false⟩,
           ⟨"$12.99".data, ⟨false, 1299, -2⟩, 111, false, false, false⟩] ∧
    reFindAll thenM (normalize_for_price_extractionT failText.data) = [] := by
  refine ⟨by decide, by decide, by decide⟩

/-- Claim C3 (amended): the *apple* scraper's `default_currency_for_alpha2`
consults the override table first: a table hit is returned whatever the
babel database would say.  (The spotify copy consults babel first; see the
counterexample.) -/
theorem claim_C3 (babel : Babel) (a2 v : String)
    (h : HARDCODE_FALLBACKS.lookup (upperS a2) = some v) :
    default_currency_for_alpha2 babel a2 = .ok v := by
  unfold default_currency_for_alpha2
  dsimp only
  rw [h]

/-- Witness for C3: Cambodia (`KH`) is overridden to `USD` even though the
stub database says nothing. -/
theorem witness_C3 :
    default_currency_for_alpha2 babelEC "kh" = .ok "USD" :=
  claim_C3 babelEC "kh" "USD" (by decide)

/-- Counterexample to C3 as stated for both scrapers: the spotify variant
asks babel first, so for `EC` it returns the database's `ECS` although its
fallback table maps `EC` to `USD`. -/
theorem cex_C3 :
    SPOTIFY_FALLBACKS.lookup "EC" = some "USD" ∧
    spotify_default_currency_for_alpha2 babelEC "EC" = .ok "ECS" ∧
    ("ECS" : String) ≠ "USD" := by
  refine ⟨by decide, by decide, by decide⟩

/-- Claim C4 (amended to the apple scraper's detector): on
`"Try 1 month free — $5.49"` with country `KW` the apple detector (whatever
the babel database says) does not read `Try` as the `TRY` currency — its
ISO-code scan skips `TRY` — but falls back to the territory default `KWD`,
and the selector returns no recurring price (`1` in particular is not
returned).  The spotify detector does return `TRY` here; see the
counterexample. -/
theorem claim_C4 (babel : Babel) :
    detect_currency_in_text babel "Try 1 month free — $5.49" "KW" =
      .ok ("KWD", "ambiguous->default") ∧
    ("KWD" : String) ≠ "TRY" ∧
    pick_best_price_token "Try 1 month free — $5.49" = .ok none := by
  refine ⟨rfl, by decide, by decide⟩

/-- Counterexample to C4 as claimed for both cited detectors: the spotify
scraper's `detect_currency_in_text` has no `TRY` exclusion and its
`KNOWN_ISO` contains `TRY`, so on this very text the uppercased `Try` (with
the digit `1` inside the 6-character window) is returned as the `TRY`
currency code. -/
theorem cex_C4 :
    spotify_detect_currency_in_text babelEC "Try 1 month free — $5.49" "KW" =
      .ok ("TRY", "code") := by decide

/-- Claim C5: the dollar-disambiguation heuristic fires only for a bare `$`
token with a non-dollar default currency, and then resolves in the order
context marker, Gulf allow-list, value at most 50; including the two literal
scenarios (`KW` via the Gulf rule, `US` untouched via its dollar default). -/
theorem claim_C5 :
    (∀ (babel : Babel) (g rt : String) (am : Option FParts) (a2 ctx : String),
        rt ≠ "$" →
        resolve_dollar_ambiguity babel g rt am a2 ctx = .ok (g, none)) ∧
    (∀ (babel : Babel) (g : String) (am : Option FParts) (a2 ctx d : String),
        default_currency_for_alpha2 babel a2 = .ok d →
        DOLLAR_CURRENCIES.contains d = true →
        resolve_dollar_ambiguity babel g "$" am a2 ctx = .ok (g, none)) ∧
    (∀ (babel : Babel) (g : String) (am : Option FParts) (a2 ctx d : String),
        default_currency_for_alpha2 babel a2 = .ok d →
        DOLLAR_CURRENCIES.contains d = false →
        reTest usdMarkerM ctx.data = true →
        resolve_dollar_ambiguity babel g "$" am a2 ctx =
          .ok ("USD", some "context-usd")) ∧
    (∀ (babel : Babel) (g : String) (am : Option FParts) (a2 ctx d : String),
        default_currency_for_alpha2 babel a2 = .ok d →
        DOLLAR_CURRENCIES.contains d = false →
        reTest usdMarkerM ctx.data = false →
        (a2 = "KW" ∨ a2 = "QA" ∨ a2 = "BH" ∨ a2 = "OM") →
        resolve_dollar_ambiguity babel g "$" am a2 ctx =
          .ok ("USD", some "gcc-usd")) ∧
    (∀ (babel : Babel) (g : String) (v : FParts) (a2 ctx d : String),
        default_currency_for_alpha2 babel a2 = .ok d →
        DOLLAR_CURRENCIES.contains d = false →
        reTest usdMarkerM ctx.data = false →
        ¬ (a2 = "KW" ∨ a2 = "QA" ∨ a2 = "BH" ∨ a2 = "OM") →
        resolve_dollar_ambiguity babel g "$" (some v) a2 ctx =
          (if fpLE v fpFifty then .ok ("USD", some "small-$-usd")
           else .ok (g, none))) ∧
    (∀ (babel : Babel) (g : String) (a2 ctx d : String),
        default_currency_for_alpha2 babel a2 = .ok d →
        DOLLAR_CURRENCIES.contains d = false →
        reTest usdMarkerM ctx.data = false →
        ¬ (a2 = "KW" ∨ a2 = "QA" ∨ a2 = "BH" ∨ a2 = "OM") →
        resolve_dollar_ambiguity babel g "$" none a2 ctx = .ok (g, none)) ∧
    resolve_dollar_ambiguity babel0 "KWD" "$" (some ⟨false, 499, -2⟩) "KW"
        "bare $4.99" = .ok ("USD", some "gcc-usd") ∧
    resolve_dollar_ambiguity babel0 "USD" "$" (some ⟨false, 499, -2⟩) "US"
        "bare $4.99" = .ok ("USD", none) := by
  refine ⟨?_, ?_, ?_, ?_, ?_, ?_, by decide, by decide⟩
  · intro babel g rt am a2 ctx hrt
    unfold resolve_dollar_ambiguity
    rw [if_pos hrt]
  · intro babel g am a2 ctx d hd hdol
    unfold resolve_dollar_ambiguity
    rw [if_neg (fun h => h rfl)]
    rw [hd, pbind_ok, if_pos hdol]
  · intro babel g am a2 ctx d hd hdol hm
    unfold resolve_dollar_ambiguity
    rw [if_neg (fun h => h rfl)]
    rw [hd, pbind_ok, if_neg (by simp only [hdol]; decide), if_pos hm]
  · intro babel g am a2 ctx d hd hdol hm hg
    unfold resolve_dollar_ambiguity
    rw [if_neg (fun h => h rfl)]
    rw [hd, pbind_ok, if_neg (by simp only [hdol]; decide), if_neg (by simp only [hm]; decide), if_pos hg]
  · intro babel g v a2 ctx d hd hdol hm hg
    unfold resolve_dollar_ambiguity
    rw [if_neg (fun h => h rfl)]
    rw [hd, pbind_ok, if_neg (by simp only [hdol]; decide), if_neg (by simp only [hm]; decide), if_neg hg]
    dsimp only
    rw [pbind_ok]
    by_cases hle : fpLE v fpFifty = true
    · rw [if_pos hle]
      rfl
    · rw [if_neg hle]
      rfl
  · intro babel g a2 ctx d hd hdol hm hg
    unfold resolve_dollar_ambiguity
    rw [if_neg (fun h => h rfl)]
    rw [hd, pbind_ok, if_neg (by simp only [hdol]; decide), if_neg (by simp only [hm]; decide), if_neg hg]
    dsimp only
    rw [pbind_err]
    rfl

/-- Witness for C5: the Gulf branch at concrete inputs (country `QA`, babel
knowing nothing, empty context). -/
theorem witness_C5 :
    resolve_dollar_ambiguity babel0 "QAR" "$" none "QA" "" =
      .ok ("USD", some "gcc-usd") :=
  claim_C5.2.2.2.1 babel0 "QAR" none "QA" "" "QAR" (by decide) (by decide)
    (by decide) (Or.inr (Or.inl rfl))

/-- Claim C6 (amended, restricted to tokens with at most 15 digits): on the
domain of digit/separator/space tokens, `_normalize_number` returns exactly
the canonical rendering of the decimal the spec's trailing-group rule reads
off, and that rendering parses back to the same rational value. -/
theorem claim_C6 {p : Toks} (hok : ∀ c ∈ p, okNumChar c = true)
    (hcnt : (p.filter isDig).length ≤ 15) :
    (specNormParts p = none → normNumT p = .ok []) ∧
    ∀ N f, specNormParts p = some (N, f) →
      normNumT p = .ok (pyCanonPair N f) ∧
      ∃ P, parseParts (pyCanonPair N f) = some P ∧ P.neg = false ∧
        fpToQ P = (N : ℚ) / 10 ^ f := by
  have hch := normNumT_char hok hcnt
  constructor
  · intro hn
    rw [hch, hn]
  · intro N f hs
    obtain ⟨hN, hf⟩ := specNormParts_bounds hok hcnt N f hs
    exact ⟨by rw [hch, hs], canon_value hN⟩

/-- Witness for C6: the spaced-and-comma token `"1 234,56"` normalizes to the
canonical rendering of `123456 / 10^2`. -/
theorem witness_C6 :
    normNumT "1 234,56".data = .ok (pyCanonPair 123456 2) :=
  ((claim_C6 (p := "1 234,56".data) (by decide) (by decide)).2 123456 2
    (by decide)).1

/-- Counterexample to C6 as stated for all tokens: `"10000000000000001.5"`
has 17 digits, the spec's rule reads the decimal `100000000000000015 / 10`,
but the code returns `"1.0000000000000002e+16"`, the shortest repr of the
nearest binary64 float, whose value `10^16 + 2` differs. -/
theorem cex_C6 :
    normalize_number "10000000000000001.5" = .ok "1.0000000000000002e+16" ∧
    specNormParts "10000000000000001.5".data = some (100000000000000015, 1) ∧
    parseParts "1.0000000000000002e+16".data =
      some ⟨false, 10000000000000002, 0⟩ ∧
    fpToQ ⟨false, 10000000000000002, 0⟩ ≠ (100000000000000015 : ℚ) / 10 ^ 1 := by
  refine ⟨by decide, by decide, by decide, ?_⟩
  simp only [fpToQ, Bool.false_eq_true, if_false]
  norm_num

/-- Claim C7 (amended, restricted to tokens with at most 15 digits):
normalization is idempotent — its result is its own fixpoint. -/
theorem claim_C7 {p : Toks} (hok : ∀ c ∈ p, okNumChar c = true)
    (hcnt : (p.filter isDig).length ≤ 15) :
    ∀ r, normNumT p = .ok r → normNumT r = .ok r := by
  intro r hr
  rw [normNumT_char hok hcnt] at hr
  injection hr with hr
  cases hs : specNormParts p with
  | none =>
    rw [hs] at hr
    rw [← hr]
    rfl
  | some nf =>
    rw [hs] at hr
    obtain ⟨hN, hf⟩ := specNormParts_bounds hok hcnt nf.1 nf.2 (by rw [hs])
    rw [← hr]
    exact normNumT_canon_fix hN hf

/-- Witness for C7: normalizing `"1490"` gives `"1490.0"`, which normalizes
to itself. -/
theorem witness_C7 : normNumT "1490.0".data = .ok "1490.0".data :=
  claim_C7 (p := "1490".data) (by decide) (by decide) "1490.0".data (by decide)

/-- Counterexample to C7 as stated for all valid inputs: on the 17-digit
token `"27021597764222976"` the float round-trip is not idempotent — the
output re-enters the separator-stripping branch, its exponent marker is kept
as a mantissa character and `float()` reads a value `10^16` times larger. -/
theorem cex_C7 :
    normalize_number "27021597764222976" = .ok "2.7021597764222976e+16" ∧
    normalize_number "2.7021597764222976e+16" =
      .ok "2.7021597764222976e+32" ∧
    ("2.7021597764222976e+32" : String) ≠ "2.7021597764222976e+16" := by
  refine ⟨by decide, by decide, by decide⟩

/-- Claim C8 (amended with the nonempty-cleaned-text hypothesis): whenever
the cleaned text is nonempty and the country's default currency is nonempty,
every detector branch returns a nonempty currency code. -/
theorem claim_C8 (babel : Babel) (text a2 : String)
    (hne : cleanT text.data ≠ [])
    (hdef : ∀ r, default_currency_for_alpha2 babel a2 = .ok r → r ≠ "") :
    ∀ cur reason, detect_currency_in_text babel text a2 = .ok (cur, reason) →
      cur ≠ "" :=
  detect_nonempty babel text.data a2 hne hdef

/-- Witness for C8: country `KW` (default `KWD`, nonempty) on the text
`"EUR 5"` — the detector answers `EUR`, which is nonempty. -/
theorem witness_C8 : ("EUR" : String) ≠ "" :=
  claim_C8 babelEC "EUR 5" "KW" (by decide)
    (fun r h => by
      rw [show default_currency_for_alpha2 babelEC "KW" = .ok "KWD" by decide] at h
      injection h with h
      rw [← h]
      decide)
    "EUR" "code" (by decide)

/-- Counterexample to C8 as stated: for the empty text and country `US`
(whose default `USD` is known and nonempty) the early-return branch yields
an empty currency code. -/
theorem cex_C8 :
    detect_currency_in_text babelEC "" "US" = .ok ("", "territory_default") ∧
    default_currency_for_alpha2 babelEC "US" = .ok "USD" ∧
    ("USD" : String) ≠ "" := by
  refine ⟨by decide, by decide, by decide⟩

/-- Claim C9: for every input (text, country, babel behaviour, price token)
the three core functions return normally (`.ok`): exceptions are caught
inside and failure is an `.ok none` / empty-string result. -/
theorem claim_C9 (babel : Babel) (text a2 p : String) :
    pOk (pick_best_price_token text) = true ∧
    pOk (detect_currency_in_text babel text a2) = true ∧
    pOk (normalize_number p) = true := by
  refine ⟨?_, ?_, ?_⟩
  · unfold pick_best_price_token
    rw [pOk_pMap]
    exact pick_ok _
  · exact detect_ok babel text.data a2
  · unfold normalize_number
    rw [pOk_pMap]
    exact normNumT_ok _

/-- Claim C10 (amended, restricted to tokens with at most 15 digits): every
successful non-null normalization result contains a decimal point, re-parses
as a nonnegative float, and is its own fixpoint; in particular `"1490"`
canonicalizes to `"1490.0"`. -/
theorem claim_C10 :
    (∀ (p : Toks), (∀ c ∈ p, okNumChar c = true) →
      (p.filter isDig).length ≤ 15 →
      ∀ r, normNumT p = .ok r →
        r = [] ∨
          ('.' ∈ r ∧ normNumT r = .ok r ∧
            ∃ P, parseParts r = some P ∧ P.neg = false)) ∧
    normalize_number "1490" = .ok "1490.0" := by
  constructor
  · intro p hok hcnt r hr
    rw [normNumT_char hok hcnt] at hr
    injection hr with hr
    cases hs : specNormParts p with
    | none =>
      rw [hs] at hr
      exact Or.inl hr.symm
    | some nf =>
      rw [hs] at hr
      dsimp only at hr
      obtain ⟨hN, hf⟩ := specNormParts_bounds hok hcnt nf.1 nf.2 (by rw [hs])
      rw [← hr]
      refine Or.inr ⟨?_, normNumT_canon_fix hN hf, ?_⟩
      · by_cases h0 : nf.1 = 0
        · unfold pyCanonPair
          rw [if_pos h0]
          decide
        · unfold pyCanonPair
          rw [if_neg h0]
          exact fmtPositional_has_dot _ _
      · obtain ⟨P, hP, hPn, _⟩ := canon_value (f := nf.2) hN
        exact ⟨P, hP, hPn⟩
  · decide

/-- Witness for C10: the token `"7"` normalizes to `"7.0"`, which contains a
decimal point, is a fixpoint, and parses as a nonnegative float. -/
theorem witness_C10 :
    "7.0".data = ([] : Toks) ∨
      ('.' ∈ "7.0".data ∧ normNumT "7.0".data = .ok "7.0".data ∧
        ∃ P, parseParts "7.0".data = some P ∧ P.neg = false) :=
  claim_C10.1 "7".data (by decide) (by decide) "7.0".data (by decide)

/-- Counterexample to C10 as stated for all digit/separator tokens: the
16-digit `"10000000000000000"` normalizes to `"1e+16"`, which contains no
decimal point. -/
theorem cex_C10 :
    normalize_number "10000000000000000" = .ok "1e+16" ∧
    ¬ ('.' ∈ "1e+16".data) := by
  refine ⟨by decide, by decide⟩

end DspScraper
